import Mathlib

/-!
Verification of the `UtterMore` template-expansion engine
(`utter_more/utter_more.py`).

The engine is embedded at character level (`List Char`).  The regular
expressions used by the Python code are tiny and backtracking-free on their
match territory, so each of them is modelled by an explicit scanner:

* `{{[^{}]*}}`   — optional-slot markers (`matchDouble` / `scanDouble`);
* `\([^()]*\)`   — choice markers (`matchOr` / `scanOr`);
* the combined substitution `re.sub(r'{{[^{}]*}}|\([^()]*\)', '{}', ...)`
  (`subMarkers`);
* the escape `re.sub(r'\{[\w]+\}', lambda x: '{' + x.group(0) + '}', ...)`
  (`escapeBraces`);
* `\*(\w+)` and `\^(\w+)` tag extraction (`firstTag`).

Python exceptions are modelled by `Option`/`Except`: a `none` result of
`buildUtterances` corresponds to an exception escaping the Python call.
Scanners use an explicit fuel argument (`List.length` of the input) so that
every definition is structurally recursive and kernel-evaluable; the fuel is
invisible in the wrappers and discharged once by congruence lemmas.
-/

namespace UtterVerify

/-- Whitespace as recognised by Python `str.split()`/`str.strip()` with no
arguments (the ASCII whitespace characters; the Python functions also accept
some rarer Unicode whitespace, which never occurs in templates here). -/
def pyIsSpace (c : Char) : Bool :=
  c == ' ' || c == '\t' || c == '\n' || c == '\r' || c == '\x0b' || c == '\x0c'

/-- Word characters of the regex class `\w` (ASCII range, as used by every
tag and slot name in the repository). -/
def isWordChar (c : Char) : Bool :=
  c.isAlphanum || c == '_'

/-- Characters allowed by `[^{}]` inside an optional-slot marker. -/
def notBrace (c : Char) : Bool :=
  !(c == '{' || c == '}')

/-- Characters allowed by `[^()]` inside a choice marker. -/
def notParen (c : Char) : Bool :=
  !(c == '(' || c == ')')

/-- A character that is none of the four marker delimiters. -/
def plainChar (c : Char) : Bool :=
  !(c == '{' || c == '}' || c == '(' || c == ')')

/-- A character allowed inside one alternative of a choice marker:
no delimiter and no pipe. -/
def altChar (c : Char) : Bool :=
  plainChar c && !(c == '|')

/-- A character that carries no master/follower annotation. -/
def noTagChar (c : Char) : Bool :=
  !(c == '*' || c == '^')

/-- Concatenation of a list of lists (used to model `itertools.chain`). -/
def catLists : List (List α) → List α
  | [] => []
  | l :: ls => l ++ catLists ls

/-- The Cartesian product in the enumeration order of `itertools.product`:
the first list varies slowest, the last list varies fastest. -/
def prodList : List (List α) → List (List α)
  | [] => [[]]
  | l :: ls => catLists (l.map fun x => (prodList ls).map fun e => x :: e)

/-- Left-to-right effectful map over `Option`: the Python loop that appends
one result per element and lets an exception abort the whole call. -/
def optMapList (f : α → Option β) : List α → Option (List β)
  | [] => some []
  | x :: xs =>
    match f x with
    | none => none
    | some y => (optMapList f xs).map fun ys => y :: ys

/-- Match of the regex `{{[^{}]*}}` at the head of the input.  On success it
returns the full matched text (`group(0)`) and the remaining input.  The
inner class is greedy but cannot backtrack into a successful match, so the
match, when it exists, is `{{`, a maximal brace-free run, `}}`. -/
def matchDouble (l : List Char) : Option (List Char × List Char) :=
  if l.take 2 = ['{', '{'] then
    let rest := l.drop 2
    let inner := rest.takeWhile notBrace
    let rest1 := rest.dropWhile notBrace
    if rest1.take 2 = ['}', '}'] then
      some ('{' :: '{' :: (inner ++ ['}', '}']), rest1.drop 2)
    else none
  else none

/-- Match of the regex `\([^()]*\)` at the head of the input. -/
def matchOr (l : List Char) : Option (List Char × List Char) :=
  if l.take 1 = ['('] then
    let rest := l.drop 1
    let inner := rest.takeWhile notParen
    let rest1 := rest.dropWhile notParen
    if rest1.take 1 = [')'] then
      some ('(' :: (inner ++ [')']), rest1.drop 1)
    else none
  else none

/-- Match of the regex `\{[\w]+\}` at the head of the input, returning the
word run between the braces and the remaining input. -/
def matchBraceWord (l : List Char) : Option (List Char × List Char) :=
  if l.take 1 = ['{'] then
    let rest := l.drop 1
    let w := rest.takeWhile isWordChar
    let rest1 := rest.dropWhile isWordChar
    if w ≠ [] ∧ rest1.take 1 = ['}'] then some (w, rest1.drop 1) else none
  else none

/-- Fuelled worker for `scanDouble`.  Mirrors `re.finditer`: at the current
offset try to match; on success emit the match and continue after it, else
advance one character. -/
def scanDoubleF : Nat → Nat → List Char → List (Nat × List Char)
  | 0, _, _ => []
  | fuel + 1, i, l =>
    match matchDouble l with
    | some (m, r) => (i, m) :: scanDoubleF fuel (i + m.length) r
    | none =>
      match l with
      | [] => []
      | _ :: cs => scanDoubleF fuel (i + 1) cs

/-- All non-overlapping matches of `{{[^{}]*}}` with their start offsets,
scanning left to right from offset `i`
(`re.finditer(r'({{[^{}]*}})', utterance_template)`). -/
def scanDouble (i : Nat) (l : List Char) : List (Nat × List Char) :=
  scanDoubleF l.length i l

/-- Fuelled worker for `scanOr`. -/
def scanOrF : Nat → Nat → List Char → List (Nat × List Char)
  | 0, _, _ => []
  | fuel + 1, i, l =>
    match matchOr l with
    | some (m, r) => (i, m) :: scanOrF fuel (i + m.length) r
    | none =>
      match l with
      | [] => []
      | _ :: cs => scanOrF fuel (i + 1) cs

/-- All non-overlapping matches of `\([^()]*\)` with their start offsets
(`re.finditer(r'(\([^()]*\))', utterance_template)`). -/
def scanOr (i : Nat) (l : List Char) : List (Nat × List Char) :=
  scanOrF l.length i l

/-- Fuelled worker for `subMarkers`.  The alternation tries the double-curly
branch first, exactly like `{{[^{}]*}}|\([^()]*\)`. -/
def subMarkersF : Nat → List Char → List Char
  | 0, _ => []
  | fuel + 1, l =>
    match matchDouble l with
    | some (_, r) => '{' :: '}' :: subMarkersF fuel r
    | none =>
      match matchOr l with
      | some (_, r) => '{' :: '}' :: subMarkersF fuel r
      | none =>
        match l with
        | [] => []
        | c :: cs => c :: subMarkersF fuel cs

/-- The substitution `re.sub(r'{{[^{}]*}}|\([^()]*\)', '{}', template)`. -/
def subMarkers (l : List Char) : List Char :=
  subMarkersF l.length l

/-- Fuelled worker for `escapeBraces`. -/
def escapeBracesF : Nat → List Char → List Char
  | 0, _ => []
  | fuel + 1, l =>
    match matchBraceWord l with
    | some (w, r) => '{' :: '{' :: (w ++ '}' :: '}' :: escapeBracesF fuel r)
    | none =>
      match l with
      | [] => []
      | c :: cs => c :: escapeBracesF fuel cs

/-- The substitution
`re.sub(r'\{[\w]+\}', lambda x: '{' + x.group(0) + '}', template)` which
escapes pre-existing literal `{word}` runs to `{{word}}`. -/
def escapeBraces (l : List Char) : List Char :=
  escapeBracesF l.length l

/-- Python `str.split()` with no separator: split into the maximal runs of
non-whitespace characters, dropping all whitespace. -/
def pySplit : List Char → List (List Char)
  | [] => []
  | c :: cs =>
    if pyIsSpace c then pySplit cs
    else
      match cs with
      | [] => [[c]]
      | d :: _ =>
        if pyIsSpace d then [c] :: pySplit cs
        else
          match pySplit cs with
          | w :: ws => (c :: w) :: ws
          | [] => [[c]]

/-- Python `' '.join(words)`. -/
def joinSpace : List (List Char) → List Char
  | [] => []
  | [w] => w
  | w :: ws => w ++ ' ' :: joinSpace ws

/-- The whitespace cleanup `' '.join(s.split())` applied to every produced
utterance. -/
def normalizeWs (s : List Char) : List Char :=
  joinSpace (pySplit s)

/-- Python `str.strip()` with no arguments. -/
def pyStrip (s : List Char) : List Char :=
  ((s.dropWhile pyIsSpace).reverse.dropWhile pyIsSpace).reverse

/-- Positional `str.format`, restricted to the field syntax reachable from
the skeletons this program builds: `{}` consumes the next positional
argument, `{{` and `}}` emit literal braces, and every other use of a brace
(a lone brace, or a named/indexed field, which would raise `ValueError`,
`KeyError` or `IndexError` with purely positional arguments) is an error.
Surplus arguments are ignored, exactly like `str.format`. -/
def pyFormat : List Char → List (List Char) → Option (List Char)
  | [], _ => some []
  | c :: cs, args =>
    if c = '{' then
      match cs with
      | [] => none
      | d :: ds =>
        if d = '{' then (pyFormat ds args).map fun r => '{' :: r
        else if d = '}' then
          match args with
          | [] => none
          | a :: rest => (pyFormat ds rest).map fun r => a ++ r
        else none
    else if c = '}' then
      match cs with
      | [] => none
      | d :: ds => if d = '}' then (pyFormat ds args).map fun r => '}' :: r else none
    else (pyFormat cs args).map fun r => c :: r

/-- Python `str.split('|')`. -/
def splitPipe : List Char → List (List Char)
  | [] => [[]]
  | c :: cs =>
    if c = '|' then [] :: splitPipe cs
    else
      match splitPipe cs with
      | w :: ws => (c :: w) :: ws
      | [] => [[c]]

/-- Conversion of one recorded marker text into its substitution
alternatives, following `_order_curlies`: a `{{...}}` marker yields
`[curly[1:-1], '']`, a `(...)` marker yields `curly[1:-1].split('|')`, and
anything else contributes nothing. -/
def curlyAlts (curly : List Char) : Option (List (List Char)) :=
  if curly.take 2 = ['{', '{'] then some [(curly.drop 1).dropLast, []]
  else if curly.take 1 = ['('] then some (splitPipe ((curly.drop 1).dropLast))
  else none

/-- One insertion into a Python dict modelled as an insertion-ordered
association list: an existing key is overwritten in place, a new key is
appended. -/
def dictUpsert (d : List (Nat × List Char)) (k : Nat) (v : List Char) :
    List (Nat × List Char) :=
  if d.any fun p => p.1 = k then
    d.map fun p => if p.1 = k then (k, v) else p
  else d ++ [(k, v)]

/-- The dict comprehension
`{curly.start(0): curly.group(0) for curly in all_curlies}`. -/
def pyDict (l : List (Nat × List Char)) : List (Nat × List Char) :=
  l.foldl (fun d p => dictUpsert d p.1 p.2) []

/-- Comparison of dict entries by key, used for `sorted(keys)`. -/
def keyLe (p q : Nat × List Char) : Prop :=
  p.1 ≤ q.1

/-- Strict comparison of dict entries by key. -/
def keyLt (p q : Nat × List Char) : Prop :=
  p.1 < q.1

instance : DecidableRel keyLe := fun p q => Nat.decLe p.1 q.1

instance : IsTotal (Nat × List Char) keyLe :=
  ⟨fun a b => Nat.le_total a.1 b.1⟩

instance : IsTrans (Nat × List Char) keyLe :=
  ⟨fun _ _ _ h1 h2 => Nat.le_trans h1 h2⟩

instance : IsAntisymm (Nat × List Char) keyLt :=
  ⟨fun a _ h1 h2 => absurd (Nat.lt_trans h1 h2) (Nat.lt_irrefl a.1)⟩

/-- `UtterMore._order_curlies`: chain the two match lists into a dict keyed
by start offset, walk the keys in ascending order, and convert each marker
text into its alternative list. -/
def orderCurlies (doubles ors : List (Nat × List Char)) :
    List (List (List Char)) :=
  (List.insertionSort keyLe (pyDict (doubles ++ ors))).filterMap fun p =>
    curlyAlts p.2

/-- First match of `\*(\w+)` (for `mark = '*'`) or `\^(\w+)` (for
`mark = '^'`) in a chosen alternative: the code keeps only
`re.findall(...)[0]`, the leftmost tag. -/
def firstTag (mark : Char) : List Char → Option (List Char)
  | [] => none
  | c :: cs =>
    if c = mark then
      let w := cs.takeWhile isWordChar
      if w = [] then firstTag mark cs else some w
    else firstTag mark cs

/-- The master set of a candidate combination: every leftmost `*`-tag of a
chosen alternative (`masters.add(found_master[0])`).  Membership in this
list is what the Python `set` is used for. -/
def mastersOf (edit : List (List Char)) : List (List Char) :=
  edit.filterMap (firstTag '*')

/-- The `skip_edit` flag loop of `_fill_in_template`: starting from `False`,
an alternative whose leftmost `^`-tag is absent from the master set sets the
flag; nothing ever clears it. -/
def skipEdit (edit : List (List Char)) : Bool :=
  let masters := mastersOf edit
  edit.foldl
    (fun skip kw =>
      match firstTag '^' kw with
      | some t => if t ∈ masters then skip else true
      | none => skip)
    false

/-- The cleanup `x.split('*')[0].split('^')[0]` applied to each chosen
alternative before substitution. -/
def cleanAlt (x : List Char) : List Char :=
  (x.takeWhile fun c => ¬c = '*').takeWhile fun c => ¬c = '^'

/-- `UtterMore._fill_in_template`: run over the Cartesian product of the
alternative lists, drop the combinations flagged by the master/follower
check, and substitute the cleaned survivors into the skeleton, normalizing
whitespace. -/
def fillInTemplate (template : List Char) (ordered : List (List (List Char))) :
    Option (List (List Char)) :=
  optMapList
    (fun edit => (pyFormat template (edit.map cleanAlt)).map normalizeWs)
    ((prodList ordered).filter fun e => !skipEdit e)

/-- `UtterMore.build_utterances`: find both marker kinds, compile the
skeleton (markers to `{}`, then literal `{word}` runs escaped), order the
markers and fill in the template. -/
def buildUtterances (t : List Char) : Option (List (List Char)) :=
  fillInTemplate (escapeBraces (subMarkers t))
    (orderCurlies (scanDouble 0 t) (scanOr 0 t))

/-- `build_utterances` on Lean strings, for concrete test templates. -/
def buildUtterancesStr (s : String) : Option (List String) :=
  (buildUtterances s.data).map fun l => l.map fun p => String.mk p

/-- Predicate for the follower check as the specification words it: every
chosen alternative that carries a follower tag has a master of the same tag
somewhere in the same combination. -/
def acceptedBySpec (edit : List (List Char)) : Prop :=
  ∀ kw ∈ edit, ∀ t, firstTag '^' kw = some t → t ∈ mastersOf edit

/-- Fuelled worker for `litOk`. -/
def litOkF : Nat → List Char → Bool
  | 0, l => l.isEmpty
  | fuel + 1, l =>
    match l with
    | [] => true
    | c :: cs =>
      if c = '{' then
        match matchBraceWord (c :: cs) with
        | some (_, r) => litOkF fuel r
        | none => false
      else if c = '}' || c = '(' || c = ')' then false
      else litOkF fuel cs

/-- Marker-free literal text as the specification's grammar (sections 3 and
4.2) allows it: any characters except marker delimiters, plus literal
`{word}` runs (which the skeleton compiler escapes and the substitution
emits verbatim). -/
def litOk (l : List Char) : Bool :=
  litOkF l.length l

/-- Structural form of a template, used to quantify over the template
grammar of the specification (section 3): literal text, optional-slot
markers `{{name}}` and choice markers `(alt|alt|...)`. -/
inductive Seg where
  | lit : List Char → Seg
  | slot : List Char → Seg
  | choice : List (List Char) → Seg
deriving DecidableEq

/-- Well-formedness of one segment, following the grammar restrictions of
the specification: literal text is marker-free literal text of the
specification's grammar (plain characters plus literal `{word}` runs,
sections 3 and 4.2), a slot name contains no delimiter, and each choice
alternative contains no delimiter and no pipe.  A choice has at least one
alternative (`''.split('|')` can never produce an empty list). -/
def wfSeg : Seg → Bool
  | Seg.lit s => litOk s
  | Seg.slot n => n.all plainChar
  | Seg.choice alts => decide (alts ≠ []) && alts.all fun a => a.all altChar

/-- Well-formedness of a whole structural template. -/
def wfSegs (ss : List Seg) : Bool :=
  ss.all wfSeg

/-- Python `'|'.join(alts)`, the inverse of `splitPipe`. -/
def pipeJoin : List (List Char) → List Char
  | [] => []
  | [a] => a
  | a :: rest => a ++ '|' :: pipeJoin rest

/-- The concrete text of one structural segment. -/
def renderSeg : Seg → List Char
  | Seg.lit s => s
  | Seg.slot n => '{' :: '{' :: (n ++ ['}', '}'])
  | Seg.choice alts => '(' :: (pipeJoin alts ++ [')'])

/-- The concrete template text of a structural template. -/
def render (ss : List Seg) : List Char :=
  catLists (ss.map renderSeg)

/-- The skeleton the compiler should produce for a structural template:
literal text kept verbatim, each marker replaced by `{}`. -/
def renderSkel : List Seg → List Char
  | [] => []
  | Seg.lit s :: rest => s ++ renderSkel rest
  | Seg.slot _ :: rest => '{' :: '}' :: renderSkel rest
  | Seg.choice _ :: rest => '{' :: '}' :: renderSkel rest

/-- The compiled skeleton after the brace-escaping pass: every literal
`{word}` run of the literal text doubled to `{{word}}`, each marker
replaced by `{}`. -/
def renderSkelE : List Seg → List Char
  | [] => []
  | Seg.lit s :: rest => escapeBraces s ++ renderSkelE rest
  | Seg.slot _ :: rest => '{' :: '}' :: renderSkelE rest
  | Seg.choice _ :: rest => '{' :: '}' :: renderSkelE rest

/-- The per-marker alternative lists of a structural template, in source
order: a slot contributes `["{name}", ""]`, a choice contributes its
alternatives. -/
def markersOf : List Seg → List (List (List Char))
  | [] => []
  | Seg.lit _ :: rest => markersOf rest
  | Seg.slot n :: rest => ['{' :: (n ++ ['}']), []] :: markersOf rest
  | Seg.choice alts :: rest => alts :: markersOf rest

/-- The `{{...}}` markers of a structural template with their start
offsets, scanning from offset `i`. -/
def idxSlots (i : Nat) : List Seg → List (Nat × List Char)
  | [] => []
  | Seg.lit s :: rest => idxSlots (i + s.length) rest
  | Seg.slot n :: rest =>
    (i, '{' :: '{' :: (n ++ ['}', '}'])) :: idxSlots (i + (n.length + 4)) rest
  | Seg.choice alts :: rest => idxSlots (i + ((pipeJoin alts).length + 2)) rest

/-- The `(...)` markers of a structural template with their start offsets. -/
def idxOrs (i : Nat) : List Seg → List (Nat × List Char)
  | [] => []
  | Seg.lit s :: rest => idxOrs (i + s.length) rest
  | Seg.slot n :: rest => idxOrs (i + (n.length + 4)) rest
  | Seg.choice alts :: rest =>
    (i, '(' :: (pipeJoin alts ++ [')'])) :: idxOrs (i + ((pipeJoin alts).length + 2)) rest

/-- All markers of a structural template with their start offsets, in
source order. -/
def idxMarkers (i : Nat) : List Seg → List (Nat × List Char)
  | [] => []
  | Seg.lit s :: rest => idxMarkers (i + s.length) rest
  | Seg.slot n :: rest =>
    (i, '{' :: '{' :: (n ++ ['}', '}'])) :: idxMarkers (i + (n.length + 4)) rest
  | Seg.choice alts :: rest =>
    (i, '(' :: (pipeJoin alts ++ [')'])) :: idxMarkers (i + ((pipeJoin alts).length + 2)) rest

/-- Absence of master/follower annotations in one segment. -/
def segNoTags : Seg → Bool
  | Seg.lit _ => true
  | Seg.slot n => n.all noTagChar
  | Seg.choice alts => alts.all fun a => a.all noTagChar

/-- Absence of master/follower annotations in a whole template. -/
def noTags (ss : List Seg) : Bool :=
  ss.all segNoTags

/-- Reference substitution of one argument per marker into a structural
template (surplus arguments are ignored, as `str.format` does). -/
def spliceT : List Seg → List (List Char) → List Char
  | [], _ => []
  | Seg.lit s :: rest, args => s ++ spliceT rest args
  | Seg.slot _ :: rest, [] => spliceT rest []
  | Seg.slot _ :: rest, a :: args => a ++ spliceT rest args
  | Seg.choice _ :: rest, [] => spliceT rest []
  | Seg.choice _ :: rest, a :: args => a ++ spliceT rest args

/-- The phrase a candidate combination produces for a structural template:
substitution followed by whitespace normalization. -/
def phraseOf (ss : List Seg) (edit : List (List Char)) : List Char :=
  normalizeWs (spliceT ss edit)

/-- Number of positional placeholders `{}` in a compiled skeleton. -/
def countPH : List Char → Nat
  | [] => 0
  | [_] => 0
  | c :: d :: ds => if c = '{' ∧ d = '}' then countPH ds + 1 else countPH (d :: ds)

/-- Number of optional-slot markers of a structural template. -/
def numSlots : List Seg → Nat
  | [] => 0
  | Seg.slot _ :: rest => numSlots rest + 1
  | _ :: rest => numSlots rest

/-- The alternative counts of the choice markers of a structural template. -/
def choiceSizes : List Seg → List Nat
  | [] => []
  | Seg.choice alts :: rest => alts.length :: choiceSizes rest
  | _ :: rest => choiceSizes rest

/-- Product of a list of naturals. -/
def natProd : List Nat → Nat
  | [] => 1
  | n :: ns => n * natProd ns

/-- Absence of a run of two adjacent whitespace characters. -/
def noWsRun : List Char → Bool
  | a :: b :: rest => !(pyIsSpace a && pyIsSpace b) && noWsRun (b :: rest)
  | _ => true

/-- Absence of trailing whitespace: the last character, when there is one,
is not whitespace. -/
def noTrailWs : List Char → Bool
  | [] => true
  | [c] => !pyIsSpace c
  | _ :: d :: rest => noTrailWs (d :: rest)

/-- Absence of leading whitespace: the first character, when there is one,
is not whitespace. -/
def noLeadWs : List Char → Bool
  | [] => true
  | c :: _ => !pyIsSpace c

/-- A fully whitespace-normalized string: no leading whitespace, no
trailing whitespace, no run of two or more whitespace characters. -/
def wsOk (s : List Char) : Bool :=
  noLeadWs s && noTrailWs s && noWsRun s

/-- The attribute state of an `UtterMore` object. -/
structure UMState where
  utterance_templates : List (List Char)
  utterances : List (List (List Char))
deriving DecidableEq

/-- `UtterMore.add_utterance_template`: append one template. -/
def add_utterance_template (st : UMState) (t : List Char) : UMState :=
  { st with utterance_templates := st.utterance_templates ++ [t] }

/-- `UtterMore.build_utterances` as a method call: the body reads only its
argument and local variables and assigns no attribute, so the state is
returned unchanged next to the computed value. -/
def build_utterances_method (st : UMState) (t : List Char) :
    UMState × Option (List (List Char)) :=
  (st, buildUtterances t)

/-- Loop body of `iter_build_utterances` over the stored template list. -/
def iterBuildAux : UMState → List (List Char) → Option UMState
  | st, [] => some st
  | st, t :: ts =>
    match buildUtterances t with
    | none => none
    | some r => iterBuildAux { st with utterances := st.utterances ++ [r] } ts

/-- `UtterMore.iter_build_utterances`: build every stored template in order
and append each result list to `self.utterances`. -/
def iter_build_utterances (st : UMState) : Option UMState :=
  iterBuildAux st st.utterance_templates

/-- Exceptions that `save_utterances` can raise before writing. -/
inductive PyExc where
  | fileExistsExc : PyExc
  | nameErrorExc : List Char → PyExc
deriving DecidableEq

/-- Description of the single file write `save_utterances` performs. -/
inductive WriteContent where
  | txtLines : List (List Char) → WriteContent
  | csvRow : List (List Char) → WriteContent
  | noOutput : WriteContent
deriving DecidableEq

/-- POSIX `os.path.join` for the two-component call used here. -/
def pathJoin (a b : List Char) : List Char :=
  if b.take 1 = ['/'] then b
  else if a = [] then b
  else if a.getLast? = some '/' then a ++ b
  else a ++ '/' :: b

/-- `UtterMore.save_utterances`, with the file system abstracted to an
existence predicate.  The two pre-write checks are modelled in source
order.  In the unsupported-format branch the code evaluates
`"File type '{}' is not supported.".format(ftype_or)` before raising, and
`ftype_or` is bound nowhere in the module, so Python raises
`NameError: name 'ftype_or' is not defined` instead of the intended
`Exception`.  On success the write is described: `written_as='txt'` writes
one stripped utterance per line over the chained utterance lists,
`written_as='csv'` writes a single row, and any other `written_as` value
leaves the opened file empty. -/
def save_utterances (existsAt : List Char → Bool) (fpath nm saved_as : List Char)
    (force : Bool) (written_as : Option (List Char))
    (utts : List (List (List Char))) : Except PyExc (List Char × WriteContent) :=
  let wa := written_as.getD saved_as
  let full_path := pathJoin fpath (nm ++ '.' :: saved_as)
  if existsAt full_path && !force then
    Except.error PyExc.fileExistsExc
  else if saved_as = "csv".data ∨ saved_as = "txt".data then
    Except.ok
      (full_path,
        if wa = "txt".data then WriteContent.txtLines ((catLists utts).map pyStrip)
        else if wa = "csv".data then WriteContent.csvRow (catLists utts)
        else WriteContent.noOutput)
  else Except.error (PyExc.nameErrorExc "ftype_or".data)

/-! ### Generic list lemmas -/

theorem all_takeWhile (p : Char → Bool) :
    ∀ l : List Char, ∀ c ∈ l.takeWhile p, p c = true := by
  intro l
  induction l with
  | nil => intro c hc; simp [List.takeWhile] at hc
  | cons a as ih =>
    intro c hc
    simp only [List.takeWhile] at hc
    cases hp : p a with
    | true =>
      rw [hp] at hc
      rcases List.mem_cons.mp hc with h | h
      · subst h; exact hp
      · exact ih c h
    | false => rw [hp] at hc; simp at hc

theorem takeWhile_append_of_all {p : Char → Bool} :
    ∀ {s t : List Char}, (∀ c ∈ s, p c = true) →
      (s ++ t).takeWhile p = s ++ t.takeWhile p := by
  intro s
  induction s with
  | nil => intro t _; simp
  | cons a as ih =>
    intro t h
    have ha : p a = true := h a (List.mem_cons_self a as)
    simp only [List.cons_append, List.takeWhile, ha]
    exact congrArg (a :: ·) (ih fun c hc => h c (List.mem_cons_of_mem a hc))

theorem dropWhile_append_of_all {p : Char → Bool} :
    ∀ {s t : List Char}, (∀ c ∈ s, p c = true) →
      (s ++ t).dropWhile p = t.dropWhile p := by
  intro s
  induction s with
  | nil => intro t _; simp
  | cons a as ih =>
    intro t h
    have ha : p a = true := h a (List.mem_cons_self a as)
    simp only [List.cons_append, List.dropWhile, ha]
    exact ih fun c hc => h c (List.mem_cons_of_mem a hc)

theorem takeWhile_eq_self_of_all {p : Char → Bool} {l : List Char}
    (h : ∀ c ∈ l, p c = true) : l.takeWhile p = l := by
  have := @takeWhile_append_of_all p l [] h
  simpa using this

theorem length_dropWhile_le (p : Char → Bool) (l : List Char) :
    (l.dropWhile p).length ≤ l.length := by
  induction l with
  | nil => simp [List.dropWhile]
  | cons c cs ih =>
    simp only [List.dropWhile]
    split
    · exact Nat.le_succ_of_le ih
    · simp

theorem take_two_eq {l : List Char} {a b : Char} (h : l.take 2 = [a, b]) :
    l = a :: b :: l.drop 2 := by
  have := List.take_append_drop 2 l
  rw [h] at this
  simpa using this.symm

theorem take_one_eq {l : List Char} {a : Char} (h : l.take 1 = [a]) :
    l = a :: l.drop 1 := by
  have := List.take_append_drop 1 l
  rw [h] at this
  simpa using this.symm

/-! ### Characterization of the head matchers -/

theorem matchDouble_some {l m r : List Char} (h : matchDouble l = some (m, r)) :
    l = m ++ r ∧ 4 ≤ m.length := by
  unfold matchDouble at h
  by_cases h2 : l.take 2 = ['{', '{']
  · rw [if_pos h2] at h
    by_cases h3 : (((l.drop 2).dropWhile notBrace).take 2) = ['}', '}']
    · rw [if_pos h3] at h
      simp only [Option.some.injEq, Prod.mk.injEq] at h
      obtain ⟨hm, hr⟩ := h
      constructor
      · rw [take_two_eq h2, ← hm, ← hr]
        have hsplit := List.takeWhile_append_dropWhile notBrace (l.drop 2)
        conv_lhs => rw [← hsplit]
        rw [take_two_eq h3]
        simp
      · rw [← hm]; simp
    · rw [if_neg h3] at h; exact absurd h (by simp)
  · rw [if_neg h2] at h; exact absurd h (by simp)

theorem matchDouble_none_of_head {c : Char} {cs : List Char} (h : ¬c = '{') :
    matchDouble (c :: cs) = none := by
  unfold matchDouble
  rw [if_neg]
  intro hc
  rw [show (c :: cs).take 2 = c :: cs.take 1 from rfl] at hc
  injection hc with h1 _
  exact h h1

theorem matchDouble_none_of_second {c : Char} {cs : List Char} (h : ¬c = '{') :
    matchDouble ('{' :: c :: cs) = none := by
  unfold matchDouble
  rw [if_neg]
  intro hc
  rw [show ('{' :: c :: cs).take 2 = ['{', c] from rfl] at hc
  injection hc with _ h2
  injection h2 with h2 _
  exact h h2

theorem matchDouble_nil : matchDouble [] = none := rfl

theorem matchDouble_marker {n t : List Char} (hn : ∀ c ∈ n, notBrace c = true) :
    matchDouble ('{' :: '{' :: (n ++ '}' :: '}' :: t)) =
      some ('{' :: '{' :: (n ++ ['}', '}']), t) := by
  have htw : (n ++ '}' :: '}' :: t).takeWhile notBrace = n := by
    rw [takeWhile_append_of_all hn]
    simp [List.takeWhile_cons, notBrace]
  have hdw : (n ++ '}' :: '}' :: t).dropWhile notBrace = '}' :: '}' :: t := by
    rw [dropWhile_append_of_all hn]
    simp [List.dropWhile_cons, notBrace]
  unfold matchDouble
  dsimp only
  rw [show ('{' :: '{' :: (n ++ '}' :: '}' :: t)).drop 2 = n ++ '}' :: '}' :: t from rfl]
  rw [htw, hdw]
  rw [if_pos (show ('{' :: '{' :: (n ++ '}' :: '}' :: t)).take 2 = ['{', '{'] from rfl)]
  rw [if_pos (show ('}' :: '}' :: t).take 2 = ['}', '}'] from rfl)]
  rfl

theorem matchOr_some {l m r : List Char} (h : matchOr l = some (m, r)) :
    l = m ++ r ∧ 2 ≤ m.length := by
  unfold matchOr at h
  by_cases h2 : l.take 1 = ['(']
  · rw [if_pos h2] at h
    by_cases h3 : (((l.drop 1).dropWhile notParen).take 1) = [')']
    · rw [if_pos h3] at h
      simp only [Option.some.injEq, Prod.mk.injEq] at h
      obtain ⟨hm, hr⟩ := h
      constructor
      · rw [take_one_eq h2, ← hm, ← hr]
        have hsplit := List.takeWhile_append_dropWhile notParen (l.drop 1)
        conv_lhs => rw [← hsplit]
        rw [take_one_eq h3]
        simp
      · rw [← hm]; simp
    · rw [if_neg h3] at h; exact absurd h (by simp)
  · rw [if_neg h2] at h; exact absurd h (by simp)

theorem matchOr_none_of_head {c : Char} {cs : List Char} (h : ¬c = '(') :
    matchOr (c :: cs) = none := by
  unfold matchOr
  rw [if_neg]
  intro hc
  rw [show (c :: cs).take 1 = [c] from rfl] at hc
  injection hc with h1 _
  exact h h1

theorem matchOr_nil : matchOr [] = none := rfl

theorem matchOr_marker {inner t : List Char} (hn : ∀ c ∈ inner, notParen c = true) :
    matchOr ('(' :: (inner ++ ')' :: t)) = some ('(' :: (inner ++ [')']), t) := by
  have htw : (inner ++ ')' :: t).takeWhile notParen = inner := by
    rw [takeWhile_append_of_all hn]
    simp [List.takeWhile_cons, notParen]
  have hdw : (inner ++ ')' :: t).dropWhile notParen = ')' :: t := by
    rw [dropWhile_append_of_all hn]
    simp [List.dropWhile_cons, notParen]
  unfold matchOr
  dsimp only
  rw [show ('(' :: (inner ++ ')' :: t)).drop 1 = inner ++ ')' :: t from rfl]
  rw [htw, hdw]
  rw [if_pos (show ('(' :: (inner ++ ')' :: t)).take 1 = ['('] from rfl)]
  rw [if_pos (show (')' :: t).take 1 = [')'] from rfl)]
  rfl

theorem matchBraceWord_some {l w r : List Char}
    (h : matchBraceWord l = some (w, r)) :
    l = '{' :: (w ++ '}' :: r) ∧ w ≠ [] ∧ (∀ c ∈ w, isWordChar c = true) := by
  unfold matchBraceWord at h
  by_cases h2 : l.take 1 = ['{']
  · rw [if_pos h2] at h
    by_cases h3 : (l.drop 1).takeWhile isWordChar ≠ [] ∧
        (((l.drop 1).dropWhile isWordChar).take 1) = ['}']
    · rw [if_pos h3] at h
      simp only [Option.some.injEq, Prod.mk.injEq] at h
      obtain ⟨hm, hr⟩ := h
      refine ⟨?_, ?_, ?_⟩
      · rw [take_one_eq h2, ← hm, ← hr]
        have hsplit := List.takeWhile_append_dropWhile isWordChar (l.drop 1)
        conv_lhs => rw [← hsplit]
        rw [take_one_eq h3.2]
        simp
      · rw [← hm]; exact h3.1
      · rw [← hm]; exact all_takeWhile isWordChar (l.drop 1)
    · rw [if_neg h3] at h; exact absurd h (by simp)
  · rw [if_neg h2] at h; exact absurd h (by simp)

theorem matchBraceWord_none_of_head {c : Char} {cs : List Char} (h : ¬c = '{') :
    matchBraceWord (c :: cs) = none := by
  unfold matchBraceWord
  rw [if_neg]
  intro hc
  rw [show (c :: cs).take 1 = [c] from rfl] at hc
  injection hc with h1 _
  exact h h1

theorem matchBraceWord_nil : matchBraceWord [] = none := rfl

theorem matchBraceWord_none_close {t : List Char} :
    matchBraceWord ('{' :: '}' :: t) = none := by
  have htw : ('}' :: t).takeWhile isWordChar = [] := by
    simp [List.takeWhile_cons, show isWordChar '}' = false from by decide]
  unfold matchBraceWord
  dsimp only
  rw [if_pos (show ('{' :: '}' :: t).take 1 = ['{'] from rfl)]
  rw [show ('{' :: '}' :: t).drop 1 = '}' :: t from rfl]
  rw [htw]
  rw [if_neg]
  intro hc
  exact hc.1 rfl

theorem matchBraceWord_marker {w t : List Char} (hw : ∀ c ∈ w, isWordChar c = true)
    (hne : w ≠ []) :
    matchBraceWord ('{' :: (w ++ '}' :: t)) = some (w, t) := by
  have htw : (w ++ '}' :: t).takeWhile isWordChar = w := by
    rw [takeWhile_append_of_all hw]
    simp [List.takeWhile_cons, show isWordChar '}' = false from by decide]
  have hdw : (w ++ '}' :: t).dropWhile isWordChar = '}' :: t := by
    rw [dropWhile_append_of_all hw]
    simp [List.dropWhile_cons, show isWordChar '}' = false from by decide]
  unfold matchBraceWord
  dsimp only
  rw [show ('{' :: (w ++ '}' :: t)).drop 1 = w ++ '}' :: t from rfl]
  rw [htw, hdw]
  rw [if_pos (show ('{' :: (w ++ '}' :: t)).take 1 = ['{'] from rfl)]
  rw [if_pos (show w ≠ [] ∧ ('}' :: t).take 1 = ['}'] from ⟨hne, rfl⟩)]
  rfl

/-! ### Equations for the fuelled scanners -/

theorem scanDoubleF_nil (fuel i : Nat) : scanDoubleF fuel i [] = [] := by
  cases fuel <;> simp [scanDoubleF, matchDouble_nil]

theorem scanDoubleF_congr :
    ∀ (f1 f2 i : Nat) (l : List Char), l.length ≤ f1 → l.length ≤ f2 →
      scanDoubleF f1 i l = scanDoubleF f2 i l := by
  intro f1
  induction f1 with
  | zero =>
    intro f2 i l h1 _
    match l with
    | [] => simp [scanDoubleF_nil]
    | _ :: _ => simp at h1
  | succ f ih =>
    intro f2 i l h1 h2
    match l with
    | [] => simp [scanDoubleF_nil]
    | c :: cs =>
      match f2 with
      | 0 => simp at h2
      | f2' + 1 =>
        simp only [scanDoubleF]
        cases hm : matchDouble (c :: cs) with
        | none =>
          simp only [List.length_cons] at h1 h2
          exact ih f2' (i + 1) cs (by omega) (by omega)
        | some pr =>
          obtain ⟨m, r⟩ := pr
          obtain ⟨hl, h4⟩ := matchDouble_some hm
          have hlen : r.length + 4 ≤ cs.length + 1 := by
            have := congrArg List.length hl
            simp [List.length_append] at this
            omega
          simp only [List.length_cons] at h1 h2
          exact congrArg (fun x => (i, m) :: x) (ih f2' (i + m.length) r (by omega) (by omega))

theorem scanDouble_nil (i : Nat) : scanDouble i [] = [] := rfl

theorem scanDouble_step_match {l m r : List Char} {i : Nat}
    (hm : matchDouble l = some (m, r)) :
    scanDouble i l = (i, m) :: scanDouble (i + m.length) r := by
  obtain ⟨hl, h4⟩ := matchDouble_some hm
  match l, hm with
  | c :: cs, hm =>
    have hlen : r.length + 4 ≤ cs.length + 1 := by
      have := congrArg List.length hl
      simp [List.length_append] at this
      omega
    show scanDoubleF (cs.length + 1) i (c :: cs) = _
    simp only [scanDoubleF, hm]
    rw [scanDoubleF_congr cs.length r.length (i + m.length) r (by omega) (by omega)]
    rfl
  | [], hm => rw [matchDouble_nil] at hm; exact absurd hm (by simp)

theorem scanDouble_step_adv {c : Char} {cs : List Char} {i : Nat}
    (hm : matchDouble (c :: cs) = none) :
    scanDouble i (c :: cs) = scanDouble (i + 1) cs := by
  show scanDoubleF (cs.length + 1) i (c :: cs) = _
  simp only [scanDoubleF, hm]
  rfl

theorem scanOrF_nil (fuel i : Nat) : scanOrF fuel i [] = [] := by
  cases fuel <;> simp [scanOrF, matchOr_nil]

theorem scanOrF_congr :
    ∀ (f1 f2 i : Nat) (l : List Char), l.length ≤ f1 → l.length ≤ f2 →
      scanOrF f1 i l = scanOrF f2 i l := by
  intro f1
  induction f1 with
  | zero =>
    intro f2 i l h1 _
    match l with
    | [] => simp [scanOrF_nil]
    | _ :: _ => simp at h1
  | succ f ih =>
    intro f2 i l h1 h2
    match l with
    | [] => simp [scanOrF_nil]
    | c :: cs =>
      match f2 with
      | 0 => simp at h2
      | f2' + 1 =>
        simp only [scanOrF]
        cases hm : matchOr (c :: cs) with
        | none =>
          simp only [List.length_cons] at h1 h2
          exact ih f2' (i + 1) cs (by omega) (by omega)
        | some pr =>
          obtain ⟨m, r⟩ := pr
          obtain ⟨hl, h4⟩ := matchOr_some hm
          have hlen : r.length + 2 ≤ cs.length + 1 := by
            have := congrArg List.length hl
            simp [List.length_append] at this
            omega
          simp only [List.length_cons] at h1 h2
          exact congrArg (fun x => (i, m) :: x) (ih f2' (i + m.length) r (by omega) (by omega))

theorem scanOr_nil (i : Nat) : scanOr i [] = [] := rfl

theorem scanOr_step_match {l m r : List Char} {i : Nat}
    (hm : matchOr l = some (m, r)) :
    scanOr i l = (i, m) :: scanOr (i + m.length) r := by
  obtain ⟨hl, h2⟩ := matchOr_some hm
  match l, hm with
  | c :: cs, hm =>
    have hlen : r.length + 2 ≤ cs.length + 1 := by
      have := congrArg List.length hl
      simp [List.length_append] at this
      omega
    show scanOrF (cs.length + 1) i (c :: cs) = _
    simp only [scanOrF, hm]
    rw [scanOrF_congr cs.length r.length (i + m.length) r (by omega) (by omega)]
    rfl
  | [], hm => rw [matchOr_nil] at hm; exact absurd hm (by simp)

theorem scanOr_step_adv {c : Char} {cs : List Char} {i : Nat}
    (hm : matchOr (c :: cs) = none) :
    scanOr i (c :: cs) = scanOr (i + 1) cs := by
  show scanOrF (cs.length + 1) i (c :: cs) = _
  simp only [scanOrF, hm]
  rfl

theorem subMarkersF_nil (fuel : Nat) : subMarkersF fuel [] = [] := by
  cases fuel <;> simp [subMarkersF, matchDouble_nil, matchOr_nil]

theorem subMarkersF_congr :
    ∀ (f1 f2 : Nat) (l : List Char), l.length ≤ f1 → l.length ≤ f2 →
      subMarkersF f1 l = subMarkersF f2 l := by
  intro f1
  induction f1 with
  | zero =>
    intro f2 l h1 _
    match l with
    | [] => simp [subMarkersF_nil]
    | _ :: _ => simp at h1
  | succ f ih =>
    intro f2 l h1 h2
    match l with
    | [] => simp [subMarkersF_nil]
    | c :: cs =>
      match f2 with
      | 0 => simp at h2
      | f2' + 1 =>
        simp only [subMarkersF]
        simp only [List.length_cons] at h1 h2
        cases hm : matchDouble (c :: cs) with
        | some pr =>
          obtain ⟨m, r⟩ := pr
          obtain ⟨hl, h4⟩ := matchDouble_some hm
          have hlen : r.length + 4 ≤ cs.length + 1 := by
            have := congrArg List.length hl
            simp [List.length_append] at this
            omega
          exact congrArg (fun x => '{' :: '}' :: x) (ih f2' r (by omega) (by omega))
        | none =>
          cases ho : matchOr (c :: cs) with
          | some pr =>
            obtain ⟨m, r⟩ := pr
            obtain ⟨hl, h2'⟩ := matchOr_some ho
            have hlen : r.length + 2 ≤ cs.length + 1 := by
              have := congrArg List.length hl
              simp [List.length_append] at this
              omega
            exact congrArg (fun x => '{' :: '}' :: x) (ih f2' r (by omega) (by omega))
          | none =>
            exact congrArg (c :: ·) (ih f2' cs (by omega) (by omega))

theorem subMarkers_nil : subMarkers [] = [] := rfl

theorem subMarkers_step_double {l m r : List Char}
    (hm : matchDouble l = some (m, r)) :
    subMarkers l = '{' :: '}' :: subMarkers r := by
  obtain ⟨hl, h4⟩ := matchDouble_some hm
  match l, hm with
  | c :: cs, hm =>
    have hlen : r.length + 4 ≤ cs.length + 1 := by
      have := congrArg List.length hl
      simp [List.length_append] at this
      omega
    show subMarkersF (cs.length + 1) (c :: cs) = _
    simp only [subMarkersF, hm]
    rw [subMarkersF_congr cs.length r.length r (by omega) (by omega)]
    rfl
  | [], hm => rw [matchDouble_nil] at hm; exact absurd hm (by simp)

theorem subMarkers_step_or {l m r : List Char}
    (hd : matchDouble l = none) (ho : matchOr l = some (m, r)) :
    subMarkers l = '{' :: '}' :: subMarkers r := by
  obtain ⟨hl, h2⟩ := matchOr_some ho
  match l, hd, ho with
  | c :: cs, hd, ho =>
    have hlen : r.length + 2 ≤ cs.length + 1 := by
      have := congrArg List.length hl
      simp [List.length_append] at this
      omega
    show subMarkersF (cs.length + 1) (c :: cs) = _
    simp only [subMarkersF, hd, ho]
    rw [subMarkersF_congr cs.length r.length r (by omega) (by omega)]
    rfl
  | [], hd, ho => rw [matchOr_nil] at ho; exact absurd ho (by simp)

theorem subMarkers_step_copy {c : Char} {cs : List Char}
    (hd : matchDouble (c :: cs) = none) (ho : matchOr (c :: cs) = none) :
    subMarkers (c :: cs) = c :: subMarkers cs := by
  show subMarkersF (cs.length + 1) (c :: cs) = _
  simp only [subMarkersF, hd, ho]
  rfl

theorem escapeBracesF_nil (fuel : Nat) : escapeBracesF fuel [] = [] := by
  cases fuel <;> simp [escapeBracesF, matchBraceWord_nil]

theorem escapeBracesF_congr :
    ∀ (f1 f2 : Nat) (l : List Char), l.length ≤ f1 → l.length ≤ f2 →
      escapeBracesF f1 l = escapeBracesF f2 l := by
  intro f1
  induction f1 with
  | zero =>
    intro f2 l h1 _
    match l with
    | [] => simp [escapeBracesF_nil]
    | _ :: _ => simp at h1
  | succ f ih =>
    intro f2 l h1 h2
    match l with
    | [] => simp [escapeBracesF_nil]
    | c :: cs =>
      match f2 with
      | 0 => simp at h2
      | f2' + 1 =>
        simp only [escapeBracesF]
        simp only [List.length_cons] at h1 h2
        cases hm : matchBraceWord (c :: cs) with
        | some pr =>
          obtain ⟨w, r⟩ := pr
          obtain ⟨hl, hne, _⟩ := matchBraceWord_some hm
          have hwlen : 1 ≤ w.length := by
            cases w with
            | nil => exact absurd rfl hne
            | cons _ _ => simp
          have hlen : r.length + w.length + 2 ≤ cs.length + 1 := by
            have := congrArg List.length hl
            simp [List.length_append] at this
            omega
          exact congrArg (fun x => '{' :: '{' :: (w ++ '}' :: '}' :: x)) (ih f2' r (by omega) (by omega))
        | none =>
          exact congrArg (c :: ·) (ih f2' cs (by omega) (by omega))

theorem escapeBraces_nil : escapeBraces [] = [] := rfl

theorem escapeBraces_step_word {l w r : List Char}
    (hm : matchBraceWord l = some (w, r)) :
    escapeBraces l = '{' :: '{' :: (w ++ '}' :: '}' :: escapeBraces r) := by
  obtain ⟨hl, hne, _⟩ := matchBraceWord_some hm
  match l, hm with
  | c :: cs, hm =>
    have hwlen : 1 ≤ w.length := by
      cases w with
      | nil => exact absurd rfl hne
      | cons _ _ => simp
    have hlen : r.length + w.length + 2 ≤ cs.length + 1 := by
      have := congrArg List.length hl
      simp [List.length_append] at this
      omega
    show escapeBracesF (cs.length + 1) (c :: cs) = _
    simp only [escapeBracesF, hm]
    rw [escapeBracesF_congr cs.length r.length r (by omega) (by omega)]
    rfl
  | [], hm => rw [matchBraceWord_nil] at hm; exact absurd hm (by simp)

theorem escapeBraces_step_copy {c : Char} {cs : List Char}
    (hm : matchBraceWord (c :: cs) = none) :
    escapeBraces (c :: cs) = c :: escapeBraces cs := by
  show escapeBracesF (cs.length + 1) (c :: cs) = _
  simp only [escapeBracesF, hm]
  rfl

theorem litOkF_nil (fuel : Nat) : litOkF fuel [] = true := by
  cases fuel <;> simp [litOkF, List.isEmpty]

theorem litOkF_congr :
    ∀ (f1 f2 : Nat) (l : List Char), l.length ≤ f1 → l.length ≤ f2 →
      litOkF f1 l = litOkF f2 l := by
  intro f1
  induction f1 with
  | zero =>
    intro f2 l h1 _
    match l with
    | [] => simp [litOkF_nil]
    | _ :: _ => simp at h1
  | succ f ih =>
    intro f2 l h1 h2
    match l with
    | [] => simp [litOkF_nil]
    | c :: cs =>
      match f2 with
      | 0 => simp at h2
      | f2' + 1 =>
        simp only [litOkF]
        simp only [List.length_cons] at h1 h2
        by_cases hc : c = '{'
        · rw [if_pos hc, if_pos hc]
          cases hm : matchBraceWord (c :: cs) with
          | some pr =>
            obtain ⟨w, r⟩ := pr
            obtain ⟨hl, hne, _⟩ := matchBraceWord_some hm
            have hwlen : 1 ≤ w.length := by
              cases w with
              | nil => exact absurd rfl hne
              | cons _ _ => simp
            have hlen : r.length + w.length + 2 ≤ cs.length + 1 := by
              have := congrArg List.length hl
              simp [List.length_append] at this
              omega
            exact ih f2' r (by omega) (by omega)
          | none => rfl
        · rw [if_neg hc, if_neg hc]
          by_cases hcc : c = '}' || c = '(' || c = ')'
          · rw [if_pos hcc, if_pos hcc]
          · rw [if_neg hcc, if_neg hcc]
            exact ih f2' cs (by omega) (by omega)

theorem litOk_nil : litOk [] = true := rfl

theorem litOk_step_word {l w r : List Char}
    (hm : matchBraceWord l = some (w, r)) :
    litOk l = litOk r := by
  obtain ⟨hl, hne, _⟩ := matchBraceWord_some hm
  match l, hm, hl with
  | c :: cs, hm, hl =>
    have hc : c = '{' := by
      have := congrArg (fun x => x.head?) hl
      simpa using this
    have hwlen : 1 ≤ w.length := by
      cases w with
      | nil => exact absurd rfl hne
      | cons _ _ => simp
    have hlen : r.length + w.length + 2 ≤ cs.length + 1 := by
      have := congrArg List.length hl
      simp [List.length_append] at this
      omega
    show litOkF (cs.length + 1) (c :: cs) = _
    simp only [litOkF, if_pos hc, hm]
    rw [litOkF_congr cs.length r.length r (by omega) (by omega)]
    rfl

theorem litOk_step_char {c : Char} {cs : List Char}
    (h1 : ¬c = '{') (h2 : ¬(c = '}' || c = '(' || c = ')') = true) :
    litOk (c :: cs) = litOk cs := by
  show litOkF (cs.length + 1) (c :: cs) = _
  simp only [litOkF, if_neg h1]
  rw [if_neg h2]
  rfl

theorem litOk_step_none {c : Char} {cs : List Char}
    (h1 : c = '{') (hm : matchBraceWord (c :: cs) = none) :
    litOk (c :: cs) = false := by
  show litOkF (cs.length + 1) (c :: cs) = _
  simp only [litOkF, if_pos h1, hm]

theorem litOk_step_delim {c : Char} {cs : List Char}
    (h1 : ¬c = '{') (h2 : (c = '}' || c = '(' || c = ')') = true) :
    litOk (c :: cs) = false := by
  show litOkF (cs.length + 1) (c :: cs) = _
  simp only [litOkF, if_neg h1]
  rw [if_pos h2]

/-! ### Character-class facts -/

theorem plainChar_spec {c : Char} (h : plainChar c = true) :
    ¬c = '{' ∧ ¬c = '}' ∧ ¬c = '(' ∧ ¬c = ')' := by
  simp [plainChar] at h
  tauto

theorem altChar_spec {c : Char} (h : altChar c = true) :
    ¬c = '{' ∧ ¬c = '}' ∧ ¬c = '(' ∧ ¬c = ')' ∧ ¬c = '|' := by
  simp [altChar, plainChar] at h
  tauto

theorem isWordChar_spec {c : Char} (h : isWordChar c = true) :
    ¬c = '{' ∧ ¬c = '}' ∧ ¬c = '(' ∧ ¬c = ')' := by
  refine ⟨?_, ?_, ?_, ?_⟩ <;> intro hc <;> subst hc <;> revert h <;> decide

theorem plainChar_notBrace {c : Char} (h : plainChar c = true) :
    notBrace c = true := by
  obtain ⟨h1, h2, _, _⟩ := plainChar_spec h
  simp [notBrace, h1, h2]

theorem plainChar_notParen {c : Char} (h : plainChar c = true) :
    notParen c = true := by
  obtain ⟨_, _, h3, h4⟩ := plainChar_spec h
  simp [notParen, h3, h4]

/-! ### Passthrough lemmas: scanners ignore text without their trigger -/

theorem scanDouble_append_no_open {s : List Char} (hs : ∀ c ∈ s, ¬c = '{') :
    ∀ (t : List Char) (i : Nat), scanDouble i (s ++ t) = scanDouble (i + s.length) t := by
  induction s with
  | nil => intro t i; simp
  | cons c s' ih =>
    intro t i
    have hd : matchDouble (c :: (s' ++ t)) = none :=
      matchDouble_none_of_head (hs c (List.mem_cons_self c s'))
    rw [List.cons_append, scanDouble_step_adv hd,
      ih (fun x hx => hs x (List.mem_cons_of_mem c hx)) t (i + 1)]
    simp only [List.length_cons]
    ring_nf

theorem scanOr_append_no_open {s : List Char} (hs : ∀ c ∈ s, ¬c = '(') :
    ∀ (t : List Char) (i : Nat), scanOr i (s ++ t) = scanOr (i + s.length) t := by
  induction s with
  | nil => intro t i; simp
  | cons c s' ih =>
    intro t i
    have hd : matchOr (c :: (s' ++ t)) = none :=
      matchOr_none_of_head (hs c (List.mem_cons_self c s'))
    rw [List.cons_append, scanOr_step_adv hd,
      ih (fun x hx => hs x (List.mem_cons_of_mem c hx)) t (i + 1)]
    simp only [List.length_cons]
    ring_nf

theorem subMarkers_append_plain {s : List Char}
    (hs : ∀ c ∈ s, ¬c = '{' ∧ ¬c = '(') :
    ∀ t : List Char, subMarkers (s ++ t) = s ++ subMarkers t := by
  induction s with
  | nil => intro t; simp
  | cons c s' ih =>
    intro t
    have hc := hs c (List.mem_cons_self c s')
    have hd : matchDouble (c :: (s' ++ t)) = none := matchDouble_none_of_head hc.1
    have ho : matchOr (c :: (s' ++ t)) = none := matchOr_none_of_head hc.2
    rw [List.cons_append, subMarkers_step_copy hd ho,
      ih fun x hx => hs x (List.mem_cons_of_mem c hx)]
    rfl

theorem escapeBraces_append_no_open {s : List Char} (hs : ∀ c ∈ s, ¬c = '{') :
    ∀ t : List Char, escapeBraces (s ++ t) = s ++ escapeBraces t := by
  induction s with
  | nil => intro t; simp
  | cons c s' ih =>
    intro t
    have hm : matchBraceWord (c :: (s' ++ t)) = none :=
      matchBraceWord_none_of_head (hs c (List.mem_cons_self c s'))
    rw [List.cons_append, escapeBraces_step_copy hm,
      ih fun x hx => hs x (List.mem_cons_of_mem c hx)]
    rfl

/-! ### Equations for `pyFormat` -/

theorem pyFormat_nil (args : List (List Char)) : pyFormat [] args = some [] := rfl

theorem pyFormat_char {c : Char} {t : List Char} {args : List (List Char)}
    (h1 : ¬c = '{') (h2 : ¬c = '}') :
    pyFormat (c :: t) args = (pyFormat t args).map fun r => c :: r := by
  conv_lhs => unfold pyFormat
  rw [if_neg h1, if_neg h2]

theorem pyFormat_placeholder {t : List Char} {a : List Char}
    {args : List (List Char)} :
    pyFormat ('{' :: '}' :: t) (a :: args) = (pyFormat t args).map fun r => a ++ r := by
  simp [pyFormat]

theorem pyFormat_placeholder_empty {t : List Char} :
    pyFormat ('{' :: '}' :: t) [] = none := rfl

theorem pyFormat_open_escape {t : List Char} {args : List (List Char)} :
    pyFormat ('{' :: '{' :: t) args = (pyFormat t args).map fun r => '{' :: r := by
  simp [pyFormat]

theorem pyFormat_close_escape {t : List Char} {args : List (List Char)} :
    pyFormat ('}' :: '}' :: t) args = (pyFormat t args).map fun r => '}' :: r := by
  simp [pyFormat]

theorem pyFormat_append_plain {s : List Char}
    (hs : ∀ c ∈ s, ¬c = '{' ∧ ¬c = '}') :
    ∀ (t : List Char) (args : List (List Char)),
      pyFormat (s ++ t) args = (pyFormat t args).map fun r => s ++ r := by
  induction s with
  | nil =>
    intro t args
    rw [List.nil_append]
    cases h : pyFormat t args <;> simp [h]
  | cons c s' ih =>
    intro t args
    have hc := hs c (List.mem_cons_self c s')
    rw [List.cons_append, pyFormat_char hc.1 hc.2,
      ih fun x hx => hs x (List.mem_cons_of_mem c hx)]
    cases pyFormat t args <;> simp

/-! ### Placeholder counting steps and the literal-text pipeline -/

theorem countPH_pair_step {c d : Char} {ds : List Char}
    (h : ¬(c = '{' ∧ d = '}')) :
    countPH (c :: d :: ds) = countPH (d :: ds) := by
  conv_lhs => unfold countPH
  rw [if_neg h]

theorem countPH_cons_not_open {c : Char} {r : List Char} (h : ¬c = '{') :
    countPH (c :: r) = countPH r := by
  cases r with
  | nil => rfl
  | cons d ds => exact countPH_pair_step fun hcd => h hcd.1

theorem countPH_append_plain {s : List Char} (hs : ∀ c ∈ s, ¬c = '{') :
    ∀ t : List Char, countPH (s ++ t) = countPH t := by
  induction s with
  | nil => intro t; simp
  | cons c s' ih =>
    intro t
    rw [List.cons_append, countPH_cons_not_open (hs c (List.mem_cons_self c s'))]
    exact ih (fun x hx => hs x (List.mem_cons_of_mem c hx)) t

theorem countPH_escaped_block {w Y : List Char} (hne : w ≠ [])
    (hw : ∀ x ∈ w, ¬x = '{' ∧ ¬x = '}') :
    countPH ('{' :: '{' :: (w ++ '}' :: '}' :: Y)) = countPH Y := by
  cases w with
  | nil => exact absurd rfl hne
  | cons w0 w' =>
    have h1 : ¬(('{' : Char) = '{' ∧ ('{' : Char) = '}') := by decide
    rw [countPH_pair_step h1]
    rw [List.cons_append]
    have h2 : ¬(('{' : Char) = '{' ∧ w0 = '}') :=
      fun h => (hw w0 (List.mem_cons_self w0 w')).2 h.2
    rw [countPH_pair_step h2]
    rw [countPH_cons_not_open (hw w0 (List.mem_cons_self w0 w')).1]
    rw [countPH_append_plain (fun x hx => (hw x (List.mem_cons_of_mem w0 hx)).1)
      ('}' :: '}' :: Y)]
    rw [countPH_cons_not_open (by decide : ¬('}' : Char) = '{')]
    rw [countPH_cons_not_open (by decide : ¬('}' : Char) = '{')]

/-- Literal text of the specification's grammar threads through the whole
pipeline: the two scanners pass over it, marker substitution keeps it
verbatim, brace escaping acts locally on it, formatting the escaped text
emits the original text, and the escaped text contains no positional
placeholder. -/
theorem litOk_append :
    ∀ (k : Nat) (s : List Char), s.length ≤ k → litOk s = true →
      (∀ (i : Nat) (t : List Char),
        scanDouble i (s ++ t) = scanDouble (i + s.length) t) ∧
      (∀ (i : Nat) (t : List Char), scanOr i (s ++ t) = scanOr (i + s.length) t) ∧
      (∀ t : List Char, subMarkers (s ++ t) = s ++ subMarkers t) ∧
      (∀ t : List Char, escapeBraces (s ++ t) = escapeBraces s ++ escapeBraces t) ∧
      (∀ (t : List Char) (args : List (List Char)),
        pyFormat (escapeBraces s ++ t) args = (pyFormat t args).map fun r => s ++ r) ∧
      (∀ t : List Char, countPH (escapeBraces s ++ t) = countPH t) := by
  intro k
  induction k with
  | zero =>
    intro s hlen _
    have hs : s = [] := by
      cases s with
      | nil => rfl
      | cons c cs => simp at hlen
    subst hs
    refine ⟨fun i t => by simp, fun i t => by simp, fun t => rfl,
      fun t => rfl, fun t args => ?_, fun t => rfl⟩
    show pyFormat t args = (pyFormat t args).map fun r => [] ++ r
    cases pyFormat t args <;> rfl
  | succ k ih =>
    intro s hlen hok
    cases s with
    | nil =>
      refine ⟨fun i t => by simp, fun i t => by simp, fun t => rfl,
        fun t => rfl, fun t args => ?_, fun t => rfl⟩
      show pyFormat t args = (pyFormat t args).map fun r => [] ++ r
      cases pyFormat t args <;> rfl
    | cons c cs =>
      by_cases hc : c = '{'
      · subst hc
        cases hm : matchBraceWord ('{' :: cs) with
        | none =>
          rw [litOk_step_none rfl hm] at hok
          exact absurd hok (by simp)
        | some pr =>
          obtain ⟨w, r⟩ := pr
          have hok' : litOk r = true := by
            rw [litOk_step_word hm] at hok
            exact hok
          obtain ⟨hshape, hne, hword⟩ := matchBraceWord_some hm
          have hcs : cs = w ++ '}' :: r := by
            injection hshape
          subst hcs
          have hwnb : ∀ x ∈ w, ¬x = '{' := fun x hx => (isWordChar_spec (hword x hx)).1
          have hwnc : ∀ x ∈ w, ¬x = '}' := fun x hx => (isWordChar_spec (hword x hx)).2.1
          have hwnp : ∀ x ∈ w, ¬x = '(' := fun x hx => (isWordChar_spec (hword x hx)).2.2.1
          have hrlen : r.length ≤ k := by
            simp [List.length_append] at hlen
            omega
          obtain ⟨ih1, ih2, ih3, ih4, ih5, ih6⟩ := ih r hrlen hok'
          have hmdT : ∀ u : List Char, matchDouble ('{' :: (w ++ '}' :: u)) = none := by
            intro u
            cases w with
            | nil => exact absurd rfl hne
            | cons w0 w' =>
              rw [List.cons_append]
              exact matchDouble_none_of_second (hwnb w0 (List.mem_cons_self w0 w'))
          have hmoT : ∀ u : List Char, matchOr ('{' :: (w ++ '}' :: u)) = none :=
            fun u => matchOr_none_of_head (by decide)
          have hidx : ∀ i : Nat, i + 1 + w.length + 1 + r.length =
              i + ('{' :: (w ++ '}' :: r)).length := by
            intro i
            simp only [List.length_cons, List.length_append]
            omega
          refine ⟨?_, ?_, ?_, ?_, ?_, ?_⟩
          · intro i t
            rw [show ('{' :: (w ++ '}' :: r)) ++ t = '{' :: (w ++ '}' :: (r ++ t))
              by simp]
            rw [scanDouble_step_adv (hmdT (r ++ t))]
            rw [scanDouble_append_no_open hwnb ('}' :: (r ++ t)) (i + 1)]
            rw [scanDouble_step_adv (matchDouble_none_of_head (by decide))]
            rw [ih1 (i + 1 + w.length + 1) t]
            rw [hidx i]
          · intro i t
            rw [show ('{' :: (w ++ '}' :: r)) ++ t = '{' :: (w ++ '}' :: (r ++ t))
              by simp]
            rw [scanOr_step_adv (hmoT (r ++ t))]
            rw [scanOr_append_no_open hwnp ('}' :: (r ++ t)) (i + 1)]
            rw [scanOr_step_adv (matchOr_none_of_head (by decide))]
            rw [ih2 (i + 1 + w.length + 1) t]
            rw [hidx i]
          · intro t
            rw [show ('{' :: (w ++ '}' :: r)) ++ t = '{' :: (w ++ '}' :: (r ++ t))
              by simp]
            rw [subMarkers_step_copy (hmdT (r ++ t)) (hmoT (r ++ t))]
            rw [subMarkers_append_plain fun x hx => ⟨hwnb x hx, hwnp x hx⟩]
            rw [subMarkers_step_copy (matchDouble_none_of_head (by decide))
              (matchOr_none_of_head (by decide))]
            rw [ih3 t]
            simp
          · intro t
            rw [show ('{' :: (w ++ '}' :: r)) ++ t = '{' :: (w ++ '}' :: (r ++ t))
              by simp]
            rw [escapeBraces_step_word (matchBraceWord_marker hword hne)]
            rw [escapeBraces_step_word hm]
            rw [ih4 t]
            simp
          · intro t args
            rw [escapeBraces_step_word hm]
            rw [show ('{' :: '{' :: (w ++ '}' :: '}' :: escapeBraces r)) ++ t =
              '{' :: '{' :: (w ++ '}' :: '}' :: (escapeBraces r ++ t)) by simp]
            rw [pyFormat_open_escape]
            rw [pyFormat_append_plain (fun x hx => ⟨hwnb x hx, hwnc x hx⟩)
              ('}' :: '}' :: (escapeBraces r ++ t)) args]
            rw [pyFormat_close_escape]
            rw [ih5 t args]
            cases pyFormat t args <;> simp
          · intro t
            rw [escapeBraces_step_word hm]
            rw [show ('{' :: '{' :: (w ++ '}' :: '}' :: escapeBraces r)) ++ t =
              '{' :: '{' :: (w ++ '}' :: '}' :: (escapeBraces r ++ t)) by simp]
            rw [countPH_escaped_block hne fun x hx => ⟨hwnb x hx, hwnc x hx⟩]
            exact ih6 t
      · have hdelim : ¬(c = '}' || c = '(' || c = ')') = true := by
          intro hcc
          rw [litOk_step_delim hc hcc] at hok
          exact absurd hok (by simp)
        have hok' : litOk cs = true := by
          rw [litOk_step_char hc hdelim] at hok
          exact hok
        have hclose : ¬c = '}' := by
          intro h; apply hdelim; simp [h]
        have hopen2 : ¬c = '(' := by
          intro h; apply hdelim; simp [h]
        have hcslen : cs.length ≤ k := by
          simp at hlen
          omega
        obtain ⟨ih1, ih2, ih3, ih4, ih5, ih6⟩ := ih cs hcslen hok'
        have hidx : ∀ i : Nat, i + 1 + cs.length = i + (c :: cs).length := by
          intro i
          simp only [List.length_cons]
          omega
        refine ⟨?_, ?_, ?_, ?_, ?_, ?_⟩
        · intro i t
          rw [List.cons_append]
          rw [scanDouble_step_adv (matchDouble_none_of_head hc)]
          rw [ih1 (i + 1) t]
          rw [hidx i]
        · intro i t
          rw [List.cons_append]
          rw [scanOr_step_adv (matchOr_none_of_head hopen2)]
          rw [ih2 (i + 1) t]
          rw [hidx i]
        · intro t
          rw [List.cons_append]
          rw [subMarkers_step_copy (matchDouble_none_of_head hc)
            (matchOr_none_of_head hopen2)]
          rw [ih3 t]
          rw [List.cons_append]
        · intro t
          rw [List.cons_append]
          rw [escapeBraces_step_copy (matchBraceWord_none_of_head hc)]
          rw [ih4 t]
          rw [escapeBraces_step_copy (matchBraceWord_none_of_head hc)]
          rw [List.cons_append]
        · intro t args
          rw [escapeBraces_step_copy (matchBraceWord_none_of_head hc)]
          rw [List.cons_append]
          rw [pyFormat_char hc hclose]
          rw [ih5 t args]
          cases pyFormat t args <;> simp
        · intro t
          rw [escapeBraces_step_copy (matchBraceWord_none_of_head hc)]
          rw [List.cons_append]
          rw [countPH_cons_not_open hc]
          exact ih6 t

/-! ### Structural templates: basic equations -/

theorem render_nil : render [] = [] := rfl

theorem render_cons (s : Seg) (ss : List Seg) :
    render (s :: ss) = renderSeg s ++ render ss := rfl

theorem wfSegs_cons {s : Seg} {ss : List Seg} (h : wfSegs (s :: ss) = true) :
    wfSeg s = true ∧ wfSegs ss = true := by
  simp [wfSegs] at h ⊢
  exact ⟨h.1, h.2⟩

theorem wfSeg_lit {s : List Char} (h : wfSeg (Seg.lit s) = true) :
    litOk s = true := by
  simpa [wfSeg] using h

theorem wfSeg_slot {n : List Char} (h : wfSeg (Seg.slot n) = true) :
    ∀ c ∈ n, plainChar c = true := by
  simpa [wfSeg, List.all_eq_true] using h

theorem wfSeg_choice {alts : List (List Char)} (h : wfSeg (Seg.choice alts) = true) :
    alts ≠ [] ∧ ∀ a ∈ alts, ∀ c ∈ a, altChar c = true := by
  simpa [wfSeg, List.all_eq_true] using h

theorem mem_pipeJoin {c : Char} :
    ∀ {alts : List (List Char)}, c ∈ pipeJoin alts →
      c = '|' ∨ ∃ a ∈ alts, c ∈ a := by
  intro alts
  match alts with
  | [] => intro h; simp [pipeJoin] at h
  | [a] =>
    intro h
    right
    exact ⟨a, by simp, by simpa [pipeJoin] using h⟩
  | a :: b :: rest =>
    intro h
    rw [show pipeJoin (a :: b :: rest) = a ++ '|' :: pipeJoin (b :: rest) from rfl] at h
    rcases List.mem_append.mp h with h | h
    · right; exact ⟨a, by simp, h⟩
    · rcases List.mem_cons.mp h with h | h
      · left; exact h
      · rcases mem_pipeJoin h with h | ⟨x, hx, hcx⟩
        · left; exact h
        · right; exact ⟨x, by simp [hx], hcx⟩

theorem slot_chars {n : List Char} (hn : ∀ c ∈ n, plainChar c = true) :
    ∀ c ∈ renderSeg (Seg.slot n), ¬c = '(' := by
  intro c hc
  rw [show renderSeg (Seg.slot n) = '{' :: '{' :: (n ++ ['}', '}']) from rfl] at hc
  rcases List.mem_cons.mp hc with h | hc
  · subst h; decide
  rcases List.mem_cons.mp hc with h | hc
  · subst h; decide
  rcases List.mem_append.mp hc with h | h
  · exact (plainChar_spec (hn c h)).2.2.1
  · rcases List.mem_cons.mp h with h | h
    · subst h; decide
    · rcases List.mem_cons.mp h with h | h
      · subst h; decide
      · simp at h

theorem choice_chars {alts : List (List Char)}
    (ha : ∀ a ∈ alts, ∀ c ∈ a, altChar c = true) :
    ∀ c ∈ renderSeg (Seg.choice alts), ¬c = '{' := by
  intro c hc
  rw [show renderSeg (Seg.choice alts) = '(' :: (pipeJoin alts ++ [')']) from rfl] at hc
  rcases List.mem_cons.mp hc with h | hc
  · subst h; decide
  rcases List.mem_append.mp hc with h | h
  · rcases mem_pipeJoin h with h | ⟨a, haa, hca⟩
    · subst h; decide
    · exact (altChar_spec (ha a haa c hca)).1
  · rcases List.mem_cons.mp h with h | h
    · subst h; decide
    · simp at h

theorem pipeJoin_notParen {alts : List (List Char)}
    (ha : ∀ a ∈ alts, ∀ c ∈ a, altChar c = true) :
    ∀ c ∈ pipeJoin alts, notParen c = true := by
  intro c hc
  rcases mem_pipeJoin hc with h | ⟨a, haa, hca⟩
  · subst h; decide
  · obtain ⟨_, _, h3, h4, _⟩ := altChar_spec (ha a haa c hca)
    simp [notParen, h3, h4]

/-! ### The tokenizer on well-formed structural templates -/

theorem scanDouble_render :
    ∀ (ss : List Seg) (i : Nat), wfSegs ss = true →
      scanDouble i (render ss) = idxSlots i ss := by
  intro ss
  induction ss with
  | nil => intro i _; simp [render_nil, idxSlots, scanDouble_nil]
  | cons s rest ih =>
    intro i hwf
    obtain ⟨hs, hrest⟩ := wfSegs_cons hwf
    cases s with
    | lit s =>
      rw [render_cons]
      rw [show renderSeg (Seg.lit s) = s from rfl]
      rw [(litOk_append s.length s (Nat.le_refl s.length) (wfSeg_lit hs)).1
        i (render rest)]
      rw [ih (i + s.length) hrest]
      rfl
    | slot n =>
      rw [render_cons]
      rw [show renderSeg (Seg.slot n) = '{' :: '{' :: (n ++ ['}', '}']) from rfl]
      have hshape : ('{' :: '{' :: (n ++ ['}', '}'])) ++ render rest =
          '{' :: '{' :: (n ++ '}' :: '}' :: render rest) := by simp
      rw [hshape]
      have hmd : matchDouble ('{' :: '{' :: (n ++ '}' :: '}' :: render rest)) =
          some ('{' :: '{' :: (n ++ ['}', '}']), render rest) :=
        matchDouble_marker fun c hc => plainChar_notBrace (wfSeg_slot hs c hc)
      rw [scanDouble_step_match hmd]
      have hlen : ('{' :: '{' :: (n ++ ['}', '}'])).length = n.length + 4 := by
        simp
      rw [hlen, ih (i + (n.length + 4)) hrest]
      rfl
    | choice alts =>
      rw [render_cons]
      obtain ⟨_, ha⟩ := wfSeg_choice hs
      rw [scanDouble_append_no_open (choice_chars ha) (render rest) i]
      rw [ih (i + (renderSeg (Seg.choice alts)).length) hrest]
      have hlen : (renderSeg (Seg.choice alts)).length = (pipeJoin alts).length + 2 := by
        rw [show renderSeg (Seg.choice alts) = '(' :: (pipeJoin alts ++ [')']) from rfl]
        simp
      rw [hlen]
      rfl

theorem scanOr_render :
    ∀ (ss : List Seg) (i : Nat), wfSegs ss = true →
      scanOr i (render ss) = idxOrs i ss := by
  intro ss
  induction ss with
  | nil => intro i _; simp [render_nil, idxOrs, scanOr_nil]
  | cons s rest ih =>
    intro i hwf
    obtain ⟨hs, hrest⟩ := wfSegs_cons hwf
    cases s with
    | lit s =>
      rw [render_cons]
      rw [show renderSeg (Seg.lit s) = s from rfl]
      rw [(litOk_append s.length s (Nat.le_refl s.length) (wfSeg_lit hs)).2.1
        i (render rest)]
      rw [ih (i + s.length) hrest]
      rfl
    | slot n =>
      rw [render_cons]
      rw [scanOr_append_no_open (slot_chars (wfSeg_slot hs)) (render rest) i]
      rw [ih (i + (renderSeg (Seg.slot n)).length) hrest]
      have hlen : (renderSeg (Seg.slot n)).length = n.length + 4 := by
        rw [show renderSeg (Seg.slot n) = '{' :: '{' :: (n ++ ['}', '}']) from rfl]
        simp
      rw [hlen]
      rfl
    | choice alts =>
      rw [render_cons]
      obtain ⟨_, ha⟩ := wfSeg_choice hs
      rw [show renderSeg (Seg.choice alts) = '(' :: (pipeJoin alts ++ [')']) from rfl]
      have hshape : ('(' :: (pipeJoin alts ++ [')'])) ++ render rest =
          '(' :: (pipeJoin alts ++ ')' :: render rest) := by simp
      rw [hshape]
      have hmo : matchOr ('(' :: (pipeJoin alts ++ ')' :: render rest)) =
          some ('(' :: (pipeJoin alts ++ [')']), render rest) :=
        matchOr_marker (pipeJoin_notParen ha)
      rw [scanOr_step_match hmo]
      have hlen : ('(' :: (pipeJoin alts ++ [')'])).length = (pipeJoin alts).length + 2 := by
        simp
      rw [hlen, ih (i + ((pipeJoin alts).length + 2)) hrest]
      rfl

theorem subMarkers_render :
    ∀ ss : List Seg, wfSegs ss = true → subMarkers (render ss) = renderSkel ss := by
  intro ss
  induction ss with
  | nil => intro _; simp [render_nil, renderSkel, subMarkers_nil]
  | cons s rest ih =>
    intro hwf
    obtain ⟨hs, hrest⟩ := wfSegs_cons hwf
    cases s with
    | lit s =>
      rw [render_cons]
      rw [show renderSeg (Seg.lit s) = s from rfl]
      rw [(litOk_append s.length s (Nat.le_refl s.length) (wfSeg_lit hs)).2.2.1
        (render rest)]
      rw [ih hrest]
      rfl
    | slot n =>
      rw [render_cons]
      rw [show renderSeg (Seg.slot n) = '{' :: '{' :: (n ++ ['}', '}']) from rfl]
      have hshape : ('{' :: '{' :: (n ++ ['}', '}'])) ++ render rest =
          '{' :: '{' :: (n ++ '}' :: '}' :: render rest) := by simp
      rw [hshape]
      have hmd : matchDouble ('{' :: '{' :: (n ++ '}' :: '}' :: render rest)) =
          some ('{' :: '{' :: (n ++ ['}', '}']), render rest) :=
        matchDouble_marker fun c hc => plainChar_notBrace (wfSeg_slot hs c hc)
      rw [subMarkers_step_double hmd]
      rw [ih hrest]
      rfl
    | choice alts =>
      rw [render_cons]
      obtain ⟨_, ha⟩ := wfSeg_choice hs
      rw [show renderSeg (Seg.choice alts) = '(' :: (pipeJoin alts ++ [')']) from rfl]
      have hshape : ('(' :: (pipeJoin alts ++ [')'])) ++ render rest =
          '(' :: (pipeJoin alts ++ ')' :: render rest) := by simp
      rw [hshape]
      have hmd : matchDouble ('(' :: (pipeJoin alts ++ ')' :: render rest)) = none :=
        matchDouble_none_of_head (by decide)
      have hmo : matchOr ('(' :: (pipeJoin alts ++ ')' :: render rest)) =
          some ('(' :: (pipeJoin alts ++ [')']), render rest) :=
        matchOr_marker (pipeJoin_notParen ha)
      rw [subMarkers_step_or hmd hmo]
      rw [ih hrest]
      rfl

theorem escapeBraces_renderSkel :
    ∀ ss : List Seg, wfSegs ss = true →
      escapeBraces (renderSkel ss) = renderSkelE ss := by
  intro ss
  induction ss with
  | nil => intro _; rfl
  | cons s rest ih =>
    intro hwf
    obtain ⟨hs, hrest⟩ := wfSegs_cons hwf
    have hmarker : escapeBraces ('{' :: '}' :: renderSkel rest) =
        '{' :: '}' :: renderSkelE rest := by
      rw [escapeBraces_step_copy matchBraceWord_none_close]
      rw [escapeBraces_step_copy (matchBraceWord_none_of_head (by decide))]
      rw [ih hrest]
    cases s with
    | lit s =>
      rw [show renderSkel (Seg.lit s :: rest) = s ++ renderSkel rest from rfl]
      rw [(litOk_append s.length s (Nat.le_refl s.length) (wfSeg_lit hs)).2.2.2.1
        (renderSkel rest)]
      rw [ih hrest]
      rfl
    | slot n =>
      rw [show renderSkel (Seg.slot n :: rest) = '{' :: '}' :: renderSkel rest from rfl]
      exact hmarker
    | choice alts =>
      rw [show renderSkel (Seg.choice alts :: rest) = '{' :: '}' :: renderSkel rest from rfl]
      exact hmarker

/-! ### Ordering the markers: dict plus sorted keys -/

theorem idxMarkers_key_lb :
    ∀ (ss : List Seg) (i : Nat), ∀ p ∈ idxMarkers i ss, i ≤ p.1 := by
  intro ss
  induction ss with
  | nil => intro i p hp; simp [idxMarkers] at hp
  | cons s rest ih =>
    intro i p hp
    cases s with
    | lit s =>
      have := ih (i + s.length) p (by simpa [idxMarkers] using hp)
      omega
    | slot n =>
      rw [show idxMarkers i (Seg.slot n :: rest) =
        (i, '{' :: '{' :: (n ++ ['}', '}'])) :: idxMarkers (i + (n.length + 4)) rest
        from rfl] at hp
      rcases List.mem_cons.mp hp with h | h
      · subst h; exact Nat.le_refl i
      · have := ih (i + (n.length + 4)) p h
        omega
    | choice alts =>
      rw [show idxMarkers i (Seg.choice alts :: rest) =
        (i, '(' :: (pipeJoin alts ++ [')'])) ::
          idxMarkers (i + ((pipeJoin alts).length + 2)) rest from rfl] at hp
      rcases List.mem_cons.mp hp with h | h
      · subst h; exact Nat.le_refl i
      · have := ih (i + ((pipeJoin alts).length + 2)) p h
        omega

theorem idxMarkers_sorted :
    ∀ (ss : List Seg) (i : Nat), List.Pairwise keyLt (idxMarkers i ss) := by
  intro ss
  induction ss with
  | nil => intro i; simp [idxMarkers]
  | cons s rest ih =>
    intro i
    cases s with
    | lit s => exact ih (i + s.length)
    | slot n =>
      rw [show idxMarkers i (Seg.slot n :: rest) =
        (i, '{' :: '{' :: (n ++ ['}', '}'])) :: idxMarkers (i + (n.length + 4)) rest
        from rfl]
      refine List.Pairwise.cons ?_ (ih (i + (n.length + 4)))
      intro q hq
      have := idxMarkers_key_lb rest (i + (n.length + 4)) q hq
      show i < q.1
      omega
    | choice alts =>
      rw [show idxMarkers i (Seg.choice alts :: rest) =
        (i, '(' :: (pipeJoin alts ++ [')'])) ::
          idxMarkers (i + ((pipeJoin alts).length + 2)) rest from rfl]
      refine List.Pairwise.cons ?_ (ih (i + ((pipeJoin alts).length + 2)))
      intro q hq
      have := idxMarkers_key_lb rest (i + ((pipeJoin alts).length + 2)) q hq
      show i < q.1
      omega

theorem idx_perm :
    ∀ (ss : List Seg) (i : Nat),
      (idxSlots i ss ++ idxOrs i ss).Perm (idxMarkers i ss) := by
  intro ss
  induction ss with
  | nil => intro i; simp [idxSlots, idxOrs, idxMarkers]
  | cons s rest ih =>
    intro i
    cases s with
    | lit s =>
      rw [show idxSlots i (Seg.lit s :: rest) = idxSlots (i + s.length) rest from rfl,
        show idxOrs i (Seg.lit s :: rest) = idxOrs (i + s.length) rest from rfl,
        show idxMarkers i (Seg.lit s :: rest) = idxMarkers (i + s.length) rest from rfl]
      exact ih (i + s.length)
    | slot n =>
      rw [show idxSlots i (Seg.slot n :: rest) =
        (i, '{' :: '{' :: (n ++ ['}', '}'])) :: idxSlots (i + (n.length + 4)) rest
        from rfl,
        show idxOrs i (Seg.slot n :: rest) = idxOrs (i + (n.length + 4)) rest from rfl,
        show idxMarkers i (Seg.slot n :: rest) =
          (i, '{' :: '{' :: (n ++ ['}', '}'])) :: idxMarkers (i + (n.length + 4)) rest
          from rfl]
      rw [List.cons_append]
      exact (ih (i + (n.length + 4))).cons _
    | choice alts =>
      rw [show idxSlots i (Seg.choice alts :: rest) =
        idxSlots (i + ((pipeJoin alts).length + 2)) rest from rfl,
        show idxOrs i (Seg.choice alts :: rest) =
          (i, '(' :: (pipeJoin alts ++ [')'])) ::
            idxOrs (i + ((pipeJoin alts).length + 2)) rest from rfl,
        show idxMarkers i (Seg.choice alts :: rest) =
          (i, '(' :: (pipeJoin alts ++ [')'])) ::
            idxMarkers (i + ((pipeJoin alts).length + 2)) rest from rfl]
      exact List.perm_middle.trans
        ((ih (i + ((pipeJoin alts).length + 2))).cons _)

theorem pyDict_aux :
    ∀ (l d : List (Nat × List Char)), ((d ++ l).map Prod.fst).Nodup →
      List.foldl (fun d p => dictUpsert d p.1 p.2) d l = d ++ l := by
  intro l
  induction l with
  | nil => intro d _; simp
  | cons p l' ih =>
    intro d hnd
    have hnotin : p.1 ∉ d.map Prod.fst := by
      intro hmem
      rw [List.map_append] at hnd
      have hdisj := (List.nodup_append.mp hnd).2.2
      exact hdisj hmem (List.mem_map_of_mem Prod.fst (List.mem_cons_self p l'))
    have hcond : ¬(d.any fun q => decide (q.1 = p.1)) = true := by
      intro hany
      rw [List.any_eq_true] at hany
      obtain ⟨q, hq, hqp⟩ := hany
      have hq1 : q.1 = p.1 := of_decide_eq_true hqp
      exact hnotin (hq1 ▸ List.mem_map_of_mem Prod.fst hq)
    have hup : dictUpsert d p.1 p.2 = d ++ [p] := by
      unfold dictUpsert
      rw [if_neg hcond]
    rw [show List.foldl (fun d p => dictUpsert d p.1 p.2) d (p :: l') =
      List.foldl (fun d p => dictUpsert d p.1 p.2) (dictUpsert d p.1 p.2) l' from rfl]
    rw [hup, ih (d ++ [p]) (by simpa using hnd)]
    simp

theorem pyDict_self {l : List (Nat × List Char)} (h : (l.map Prod.fst).Nodup) :
    pyDict l = l := by
  have := pyDict_aux l [] (by simpa using h)
  simpa [pyDict] using this

theorem insertionSort_idx (ss : List Seg) :
    List.insertionSort keyLe (idxSlots 0 ss ++ idxOrs 0 ss) = idxMarkers 0 ss := by
  have hperm0 : (idxSlots 0 ss ++ idxOrs 0 ss).Perm (idxMarkers 0 ss) := idx_perm ss 0
  have hsortedM : List.Pairwise keyLt (idxMarkers 0 ss) := idxMarkers_sorted ss 0
  have hkeysM : ((idxMarkers 0 ss).map Prod.fst).Nodup :=
    List.pairwise_map.mpr (hsortedM.imp fun h => Nat.ne_of_lt h)
  have hpermS : (List.insertionSort keyLe (idxSlots 0 ss ++ idxOrs 0 ss)).Perm
      (idxMarkers 0 ss) :=
    (List.perm_insertionSort keyLe _).trans hperm0
  have hkeysS : ((List.insertionSort keyLe (idxSlots 0 ss ++ idxOrs 0 ss)).map
      Prod.fst).Nodup :=
    (List.Perm.nodup_iff (hpermS.map Prod.fst)).mpr hkeysM
  have hle : List.Pairwise keyLe (List.insertionSort keyLe (idxSlots 0 ss ++ idxOrs 0 ss)) :=
    List.sorted_insertionSort keyLe _
  have hne : List.Pairwise (fun p q : Nat × List Char => p.1 ≠ q.1)
      (List.insertionSort keyLe (idxSlots 0 ss ++ idxOrs 0 ss)) :=
    List.pairwise_map.mp hkeysS
  have hlt : List.Pairwise keyLt (List.insertionSort keyLe (idxSlots 0 ss ++ idxOrs 0 ss)) :=
    (hle.and hne).imp fun h => Nat.lt_of_le_of_ne h.1 h.2
  have hlt' : List.Sorted keyLt (List.insertionSort keyLe (idxSlots 0 ss ++ idxOrs 0 ss)) :=
    hlt
  have hsortedM' : List.Sorted keyLt (idxMarkers 0 ss) := hsortedM
  exact List.eq_of_perm_of_sorted hpermS hlt' hsortedM'

theorem idx_keys_nodup (ss : List Seg) :
    ((idxSlots 0 ss ++ idxOrs 0 ss).map Prod.fst).Nodup := by
  have hperm0 : (idxSlots 0 ss ++ idxOrs 0 ss).Perm (idxMarkers 0 ss) := idx_perm ss 0
  have hsortedM : List.Pairwise keyLt (idxMarkers 0 ss) := idxMarkers_sorted ss 0
  have hkeysM : ((idxMarkers 0 ss).map Prod.fst).Nodup :=
    List.pairwise_map.mpr (hsortedM.imp fun h => Nat.ne_of_lt h)
  exact (List.Perm.nodup_iff (hperm0.map Prod.fst)).mpr hkeysM

/-! ### Converting marker texts into alternative lists -/

theorem splitPipe_no_pipe :
    ∀ {a : List Char}, (∀ c ∈ a, ¬c = '|') → splitPipe a = [a] := by
  intro a
  induction a with
  | nil => intro _; rfl
  | cons c a' ih =>
    intro h
    rw [show splitPipe (c :: a') =
      (if c = '|' then [] :: splitPipe a'
       else match splitPipe a' with
            | w :: ws => (c :: w) :: ws
            | [] => [[c]]) from rfl]
    rw [if_neg (h c (List.mem_cons_self c a'))]
    rw [ih fun x hx => h x (List.mem_cons_of_mem c hx)]

theorem splitPipe_append {a : List Char} (h : ∀ c ∈ a, ¬c = '|') :
    ∀ t : List Char, splitPipe (a ++ '|' :: t) = a :: splitPipe t := by
  induction a with
  | nil =>
    intro t
    rw [List.nil_append]
    rw [show splitPipe ('|' :: t) =
      (if '|' = '|' then [] :: splitPipe t
       else match splitPipe t with
            | w :: ws => ('|' :: w) :: ws
            | [] => [['|']]) from rfl]
    rw [if_pos rfl]
  | cons c a' ih =>
    intro t
    rw [List.cons_append]
    rw [show splitPipe (c :: (a' ++ '|' :: t)) =
      (if c = '|' then [] :: splitPipe (a' ++ '|' :: t)
       else match splitPipe (a' ++ '|' :: t) with
            | w :: ws => (c :: w) :: ws
            | [] => [[c]]) from rfl]
    rw [if_neg (h c (List.mem_cons_self c a'))]
    rw [ih fun x hx => h x (List.mem_cons_of_mem c hx)]

theorem splitPipe_pipeJoin :
    ∀ {alts : List (List Char)}, alts ≠ [] →
      (∀ a ∈ alts, ∀ c ∈ a, ¬c = '|') →
      splitPipe (pipeJoin alts) = alts := by
  intro alts
  match alts with
  | [] => intro h _; exact absurd rfl h
  | [a] =>
    intro _ h
    rw [show pipeJoin [a] = a from rfl]
    exact splitPipe_no_pipe (h a (by simp))
  | a :: b :: rest =>
    intro _ h
    rw [show pipeJoin (a :: b :: rest) = a ++ '|' :: pipeJoin (b :: rest) from rfl]
    rw [splitPipe_append (h a (by simp)) (pipeJoin (b :: rest))]
    rw [splitPipe_pipeJoin (by simp) fun x hx => h x (by simp [hx])]

theorem curlyAlts_slot {n : List Char} :
    curlyAlts ('{' :: '{' :: (n ++ ['}', '}'])) = some ['{' :: (n ++ ['}']), []] := by
  unfold curlyAlts
  rw [if_pos (show ('{' :: '{' :: (n ++ ['}', '}'])).take 2 = ['{', '{'] from rfl)]
  rw [show ('{' :: '{' :: (n ++ ['}', '}'])).drop 1 = '{' :: (n ++ ['}', '}']) from rfl]
  have hshape : '{' :: (n ++ ['}', '}']) = ('{' :: (n ++ ['}'])) ++ ['}'] := by simp
  rw [hshape, List.dropLast_concat]

theorem curlyAlts_choice {alts : List (List Char)} (hne : alts ≠ [])
    (h : ∀ a ∈ alts, ∀ c ∈ a, ¬c = '|') :
    curlyAlts ('(' :: (pipeJoin alts ++ [')'])) = some alts := by
  unfold curlyAlts
  rw [if_neg (show ¬('(' :: (pipeJoin alts ++ [')'])).take 2 = ['{', '{'] by
    intro hc
    rw [show ('(' :: (pipeJoin alts ++ [')'])).take 2 =
      '(' :: (pipeJoin alts ++ [')']).take 1 from rfl] at hc
    injection hc with h1 _
    exact absurd h1 (by decide))]
  rw [if_pos (show ('(' :: (pipeJoin alts ++ [')'])).take 1 = ['('] from rfl)]
  rw [show ('(' :: (pipeJoin alts ++ [')'])).drop 1 = pipeJoin alts ++ [')'] from rfl]
  rw [List.dropLast_concat]
  rw [splitPipe_pipeJoin hne h]

theorem filterMap_idxMarkers :
    ∀ ss : List Seg, wfSegs ss = true →
      (idxMarkers 0 ss).filterMap (fun p => curlyAlts p.2) = markersOf ss := by
  have key : ∀ (ss : List Seg) (i : Nat), wfSegs ss = true →
      (idxMarkers i ss).filterMap (fun p => curlyAlts p.2) = markersOf ss := by
    intro ss
    induction ss with
    | nil => intro i _; simp [idxMarkers, markersOf]
    | cons s rest ih =>
      intro i hwf
      obtain ⟨hs, hrest⟩ := wfSegs_cons hwf
      cases s with
      | lit s => exact ih (i + s.length) hrest
      | slot n =>
        rw [show idxMarkers i (Seg.slot n :: rest) =
          (i, '{' :: '{' :: (n ++ ['}', '}'])) :: idxMarkers (i + (n.length + 4)) rest
          from rfl]
        rw [List.filterMap_cons]
        dsimp only
        rw [curlyAlts_slot]
        rw [ih (i + (n.length + 4)) hrest]
        rfl
      | choice alts =>
        obtain ⟨hne, ha⟩ := wfSeg_choice hs
        rw [show idxMarkers i (Seg.choice alts :: rest) =
          (i, '(' :: (pipeJoin alts ++ [')'])) ::
            idxMarkers (i + ((pipeJoin alts).length + 2)) rest from rfl]
        rw [List.filterMap_cons]
        dsimp only
        rw [curlyAlts_choice hne fun a haa c hca => (altChar_spec (ha a haa c hca)).2.2.2.2]
        rw [ih (i + ((pipeJoin alts).length + 2)) hrest]
        rfl
  intro ss hwf
  exact key ss 0 hwf

theorem orderCurlies_render {ss : List Seg} (hwf : wfSegs ss = true) :
    orderCurlies (scanDouble 0 (render ss)) (scanOr 0 (render ss)) = markersOf ss := by
  rw [scanDouble_render ss 0 hwf, scanOr_render ss 0 hwf]
  unfold orderCurlies
  rw [pyDict_self (idx_keys_nodup ss), insertionSort_idx ss, filterMap_idxMarkers ss hwf]

/-- On a well-formed structural template the whole pipeline reduces to
filling the reference skeleton with the source-order markers. -/
theorem buildUtterances_render {ss : List Seg} (hwf : wfSegs ss = true) :
    buildUtterances (render ss) = fillInTemplate (renderSkelE ss) (markersOf ss) := by
  unfold buildUtterances
  rw [subMarkers_render ss hwf, escapeBraces_renderSkel ss hwf, orderCurlies_render hwf]

/-! ### The skeleton always formats -/

theorem markersOf_lit (s : List Char) (rest : List Seg) :
    markersOf (Seg.lit s :: rest) = markersOf rest := rfl

theorem pyFormat_renderSkel :
    ∀ (ss : List Seg) (args : List (List Char)), wfSegs ss = true →
      (markersOf ss).length ≤ args.length →
      pyFormat (renderSkelE ss) args = some (spliceT ss args) := by
  intro ss
  induction ss with
  | nil => intro args _ _; rfl
  | cons s rest ih =>
    intro args hwf hlen
    obtain ⟨hs, hrest⟩ := wfSegs_cons hwf
    cases s with
    | lit s =>
      rw [show renderSkelE (Seg.lit s :: rest) = escapeBraces s ++ renderSkelE rest
        from rfl]
      rw [(litOk_append s.length s (Nat.le_refl s.length) (wfSeg_lit hs)).2.2.2.2.1
        (renderSkelE rest) args]
      rw [ih args hrest (by simpa [markersOf_lit] using hlen)]
      rfl
    | slot n =>
      match args with
      | [] =>
        rw [show markersOf (Seg.slot n :: rest) =
          ['{' :: (n ++ ['}']), []] :: markersOf rest from rfl] at hlen
        simp at hlen
      | a :: args' =>
        rw [show renderSkelE (Seg.slot n :: rest) = '{' :: '}' :: renderSkelE rest from rfl]
        rw [pyFormat_placeholder]
        rw [ih args' hrest (by
          rw [show markersOf (Seg.slot n :: rest) =
            ['{' :: (n ++ ['}']), []] :: markersOf rest from rfl] at hlen
          simpa using hlen)]
        rfl
    | choice alts =>
      match args with
      | [] =>
        rw [show markersOf (Seg.choice alts :: rest) =
          alts :: markersOf rest from rfl] at hlen
        simp at hlen
      | a :: args' =>
        rw [show renderSkelE (Seg.choice alts :: rest) = '{' :: '}' :: renderSkelE rest
          from rfl]
        rw [pyFormat_placeholder]
        rw [ih args' hrest (by
          rw [show markersOf (Seg.choice alts :: rest) =
            alts :: markersOf rest from rfl] at hlen
          simpa using hlen)]
        rfl

/-! ### The Cartesian product -/

theorem mem_catLists {c : α} :
    ∀ {L : List (List α)}, c ∈ catLists L ↔ ∃ l ∈ L, c ∈ l := by
  intro L
  induction L with
  | nil => simp [catLists]
  | cons l ls ih =>
    rw [show catLists (l :: ls) = l ++ catLists ls from rfl]
    simp [List.mem_append, ih]

theorem catLists_map_length {l : List α} {f : α → List β} {k : Nat}
    (h : ∀ x ∈ l, (f x).length = k) :
    (catLists (l.map f)).length = l.length * k := by
  induction l with
  | nil => simp [catLists]
  | cons x xs ih =>
    rw [List.map_cons, show catLists (f x :: xs.map f) = f x ++ catLists (xs.map f)
      from rfl]
    rw [List.length_append, h x (List.mem_cons_self x xs),
      ih fun y hy => h y (List.mem_cons_of_mem x hy)]
    simp [List.length_cons]
    ring

theorem length_prodList :
    ∀ ls : List (List α), (prodList ls).length = natProd (ls.map List.length) := by
  intro ls
  induction ls with
  | nil => rfl
  | cons l rest ih =>
    rw [show prodList (l :: rest) =
      catLists (l.map fun x => (prodList rest).map fun e => x :: e) from rfl]
    rw [@catLists_map_length _ _ l (fun x => (prodList rest).map fun e => x :: e)
      ((prodList rest).length) (fun x _ => by simp)]
    rw [ih]
    rfl

theorem mem_prodList_length {e : List α} :
    ∀ {ls : List (List α)}, e ∈ prodList ls → e.length = ls.length := by
  intro ls
  induction ls generalizing e with
  | nil => intro h; simp [prodList] at h; simp [h]
  | cons l rest ih =>
    intro h
    rw [show prodList (l :: rest) =
      catLists (l.map fun x => (prodList rest).map fun e => x :: e) from rfl] at h
    rw [mem_catLists] at h
    obtain ⟨inner, hinner, he⟩ := h
    rw [List.mem_map] at hinner
    obtain ⟨x, _, hx⟩ := hinner
    subst hx
    rw [List.mem_map] at he
    obtain ⟨e', he', hee⟩ := he
    subst hee
    simp [ih he']

theorem mem_prodList_mem {e : List α} :
    ∀ {ls : List (List α)}, e ∈ prodList ls → ∀ kw ∈ e, ∃ l ∈ ls, kw ∈ l := by
  intro ls
  induction ls generalizing e with
  | nil =>
    intro h kw hkw
    simp [prodList] at h
    subst h
    simp at hkw
  | cons l rest ih =>
    intro h kw hkw
    rw [show prodList (l :: rest) =
      catLists (l.map fun x => (prodList rest).map fun e => x :: e) from rfl] at h
    rw [mem_catLists] at h
    obtain ⟨inner, hinner, he⟩ := h
    rw [List.mem_map] at hinner
    obtain ⟨x, hx, hxe⟩ := hinner
    subst hxe
    rw [List.mem_map] at he
    obtain ⟨e', he', hee⟩ := he
    subst hee
    rcases List.mem_cons.mp hkw with h | h
    · subst h; exact ⟨l, List.mem_cons_self l rest, hx⟩
    · obtain ⟨l', hl', hkwl⟩ := ih he' kw h
      exact ⟨l', List.mem_cons_of_mem l hl', hkwl⟩

/-! ### The follower filter -/

theorem firstTag_none {mark : Char} :
    ∀ {l : List Char}, (∀ c ∈ l, ¬c = mark) → firstTag mark l = none := by
  intro l
  induction l with
  | nil => intro _; rfl
  | cons c cs ih =>
    intro h
    conv_lhs => unfold firstTag
    rw [if_neg (h c (List.mem_cons_self c cs))]
    exact ih fun x hx => h x (List.mem_cons_of_mem c hx)

theorem cleanAlt_id : ∀ {l : List Char}, (∀ c ∈ l, ¬c = '*' ∧ ¬c = '^') →
    cleanAlt l = l := by
  intro l
  induction l with
  | nil => intro _; rfl
  | cons c cs ih =>
    intro h
    have hc := h c (List.mem_cons_self c cs)
    have hrest := ih fun x hx => h x (List.mem_cons_of_mem c hx)
    unfold cleanAlt at hrest ⊢
    rw [List.takeWhile_cons, if_pos (by simp [hc.1])]
    rw [List.takeWhile_cons, if_pos (by simp [hc.2])]
    rw [hrest]

/-- One alternative of a candidate, as the flag loop classifies it:
`true` exactly when its leftmost follower tag is missing from the master
set. -/
def badFollower (masters : List (List Char)) (kw : List Char) : Bool :=
  match firstTag '^' kw with
  | some t => decide (¬t ∈ masters)
  | none => false

theorem foldl_skip_any (masters : List (List Char)) :
    ∀ (e : List (List Char)) (b : Bool),
      e.foldl
        (fun skip kw =>
          match firstTag '^' kw with
          | some t => if t ∈ masters then skip else true
          | none => skip)
        b = (b || e.any (badFollower masters)) := by
  intro e
  induction e with
  | nil => intro b; simp
  | cons kw e' ih =>
    intro b
    rw [List.foldl_cons, ih, List.any_cons]
    have hstep :
        (match firstTag '^' kw with
         | some t => if t ∈ masters then b else true
         | none => b) = (b || badFollower masters kw) := by
      unfold badFollower
      cases firstTag '^' kw with
      | none => simp
      | some t =>
        dsimp only
        by_cases ht : t ∈ masters
        · rw [if_pos ht]
          simp [ht]
        · rw [if_neg ht]
          simp [ht]
    rw [hstep, Bool.or_assoc]

theorem skipEdit_eq_any (e : List (List Char)) :
    skipEdit e = e.any (badFollower (mastersOf e)) := by
  unfold skipEdit
  rw [foldl_skip_any (mastersOf e) e false]
  simp

theorem skipEdit_true_iff (e : List (List Char)) :
    skipEdit e = true ↔
      ∃ kw ∈ e, ∃ t, firstTag '^' kw = some t ∧ ¬t ∈ mastersOf e := by
  rw [skipEdit_eq_any, List.any_eq_true]
  constructor
  · rintro ⟨kw, hkw, hbad⟩
    refine ⟨kw, hkw, ?_⟩
    unfold badFollower at hbad
    cases ht : firstTag '^' kw with
    | none => rw [ht] at hbad; simp at hbad
    | some t =>
      rw [ht] at hbad
      exact ⟨t, rfl, of_decide_eq_true hbad⟩
  · rintro ⟨kw, hkw, t, ht, hmem⟩
    refine ⟨kw, hkw, ?_⟩
    unfold badFollower
    rw [ht]
    simpa using hmem

theorem skipEdit_false_iff (e : List (List Char)) :
    skipEdit e = false ↔
      ∀ kw ∈ e, ∀ t, firstTag '^' kw = some t → t ∈ mastersOf e := by
  rw [← Bool.not_eq_true, skipEdit_true_iff]
  constructor
  · intro h kw hkw t ht
    by_contra hmem
    exact h ⟨kw, hkw, t, ht, hmem⟩
  · rintro h ⟨kw, hkw, t, ht, hmem⟩
    exact hmem (h kw hkw t ht)

theorem skipEdit_false_of_none {e : List (List Char)}
    (h : ∀ kw ∈ e, firstTag '^' kw = none) : skipEdit e = false := by
  rw [skipEdit_false_iff]
  intro kw hkw t ht
  rw [h kw hkw] at ht
  exact absurd ht (by simp)

/-! ### `optMapList` -/

theorem optMapList_eq_map {f : α → Option β} {g : α → β} :
    ∀ {l : List α}, (∀ x ∈ l, f x = some (g x)) →
      optMapList f l = some (l.map g) := by
  intro l
  induction l with
  | nil => intro _; rfl
  | cons x xs ih =>
    intro h
    rw [show optMapList f (x :: xs) =
      (match f x with
       | none => none
       | some y => (optMapList f xs).map fun ys => y :: ys) from rfl]
    rw [h x (List.mem_cons_self x xs), ih fun y hy => h y (List.mem_cons_of_mem x hy)]
    rfl

theorem optMapList_mem {f : α → Option β} {y : β} :
    ∀ {l : List α} {ys : List β}, optMapList f l = some ys → y ∈ ys →
      ∃ x ∈ l, f x = some y := by
  intro l
  induction l with
  | nil =>
    intro ys h hy
    rw [show optMapList f [] = some [] from rfl] at h
    injection h with h
    subst h
    simp at hy
  | cons x xs ih =>
    intro ys h hy
    rw [show optMapList f (x :: xs) =
      (match f x with
       | none => none
       | some y => (optMapList f xs).map fun ys => y :: ys) from rfl] at h
    cases hfx : f x with
    | none => rw [hfx] at h; exact absurd h (by simp)
    | some y0 =>
      rw [hfx] at h
      cases hrest : optMapList f xs with
      | none => rw [hrest] at h; exact absurd h (by simp)
      | some ys0 =>
        rw [hrest] at h
        have h' : y0 :: ys0 = ys := by simpa using h
        subst h'
        rcases List.mem_cons.mp hy with h | h
        · subst h; exact ⟨x, List.mem_cons_self x xs, hfx⟩
        · obtain ⟨x', hx', hfx'⟩ := ih hrest h
          exact ⟨x', List.mem_cons_of_mem x hx', hfx'⟩

/-! ### Tag-free templates -/

theorem noTags_cons {s : Seg} {ss : List Seg} (h : noTags (s :: ss) = true) :
    segNoTags s = true ∧ noTags ss = true := by
  simp [noTags] at h ⊢
  tauto

theorem noTagChar_spec {c : Char} (h : noTagChar c = true) :
    ¬c = '*' ∧ ¬c = '^' := by
  simp [noTagChar] at h
  tauto

theorem markersOf_noTags :
    ∀ ss : List Seg, noTags ss = true →
      ∀ alts ∈ markersOf ss, ∀ kw ∈ alts, ∀ c ∈ kw, noTagChar c = true := by
  intro ss
  induction ss with
  | nil => intro _ alts halts; simp [markersOf] at halts
  | cons s rest ih =>
    intro hnt alts halts kw hkw c hc
    obtain ⟨hseg, hrest⟩ := noTags_cons hnt
    cases s with
    | lit s => exact ih hrest alts halts kw hkw c hc
    | slot n =>
      rw [show markersOf (Seg.slot n :: rest) =
        ['{' :: (n ++ ['}']), []] :: markersOf rest from rfl] at halts
      rcases List.mem_cons.mp halts with h | h
      · subst h
        rcases List.mem_cons.mp hkw with h | h
        · subst h
          rcases List.mem_cons.mp hc with h | h
          · subst h; decide
          · rcases List.mem_append.mp h with h | h
            · have hn : ∀ x ∈ n, noTagChar x = true := by
                simpa [segNoTags, List.all_eq_true] using hseg
              exact hn c h
            · rcases List.mem_cons.mp h with h | h
              · subst h; decide
              · simp at h
        · rcases List.mem_cons.mp h with h | h
          · subst h; simp at hc
          · simp at h
      · exact ih hrest alts h kw hkw c hc
    | choice alts0 =>
      rw [show markersOf (Seg.choice alts0 :: rest) =
        alts0 :: markersOf rest from rfl] at halts
      rcases List.mem_cons.mp halts with h | h
      · have ha : ∀ a ∈ alts0, ∀ x ∈ a, noTagChar x = true := by
          simpa [segNoTags, List.all_eq_true] using hseg
        exact ha kw (h ▸ hkw) c hc
      · exact ih hrest alts h kw hkw c hc

/-- Core expansion theorem: on a well-formed template without master or
follower annotations, the pipeline yields exactly one phrase per candidate
combination, in Cartesian-product order over the source-ordered markers. -/
theorem expansion_noTags {ss : List Seg} (hwf : wfSegs ss = true)
    (hnt : noTags ss = true) :
    buildUtterances (render ss) =
      some ((prodList (markersOf ss)).map (phraseOf ss)) := by
  rw [buildUtterances_render hwf]
  unfold fillInTemplate
  have hfree : ∀ e ∈ prodList (markersOf ss), ∀ kw ∈ e, ∀ c ∈ kw,
      noTagChar c = true := by
    intro e he kw hkw c hc
    obtain ⟨l, hl, hkwl⟩ := mem_prodList_mem he kw hkw
    exact markersOf_noTags ss hnt l hl kw hkwl c hc
  have hfilter : ((prodList (markersOf ss)).filter fun e => !skipEdit e) =
      prodList (markersOf ss) := by
    rw [List.filter_eq_self]
    intro e he
    have hskip : skipEdit e = false := skipEdit_false_of_none fun kw hkw =>
      firstTag_none fun c hc => (noTagChar_spec (hfree e he kw hkw c hc)).2
    rw [hskip]
    rfl
  rw [hfilter]
  apply optMapList_eq_map
  intro e he
  have hclean : e.map cleanAlt = e := by
    have hid : ∀ kw ∈ e, cleanAlt kw = kw := fun kw hkw =>
      cleanAlt_id fun c hc => noTagChar_spec (hfree e he kw hkw c hc)
    have hmap : List.map cleanAlt e = List.map id e := List.map_congr_left hid
    exact hmap.trans (List.map_id e)
  rw [hclean]
  have hlen : (markersOf ss).length ≤ e.length :=
    le_of_eq (mem_prodList_length he).symm
  rw [pyFormat_renderSkel ss e hwf hlen]
  rfl

/-! ### Counting phrases and placeholders -/

theorem markersOf_sizes :
    ∀ ss : List Seg, natProd ((markersOf ss).map List.length) =
      2 ^ numSlots ss * natProd (choiceSizes ss) := by
  intro ss
  induction ss with
  | nil => rfl
  | cons s rest ih =>
    cases s with
    | lit s =>
      rw [show markersOf (Seg.lit s :: rest) = markersOf rest from rfl]
      rw [show numSlots (Seg.lit s :: rest) = numSlots rest from rfl]
      rw [show choiceSizes (Seg.lit s :: rest) = choiceSizes rest from rfl]
      exact ih
    | slot n =>
      rw [show markersOf (Seg.slot n :: rest) =
        ['{' :: (n ++ ['}']), []] :: markersOf rest from rfl]
      rw [show numSlots (Seg.slot n :: rest) = numSlots rest + 1 from rfl]
      rw [show choiceSizes (Seg.slot n :: rest) = choiceSizes rest from rfl]
      rw [List.map_cons]
      rw [show natProd (['{' :: (n ++ ['}']), []].length ::
        (markersOf rest).map List.length) =
        ['{' :: (n ++ ['}']), []].length * natProd ((markersOf rest).map List.length)
        from rfl]
      rw [ih]
      rw [show (['{' :: (n ++ ['}']), []] : List (List Char)).length = 2 from rfl]
      rw [Nat.pow_succ]
      ring
    | choice alts =>
      rw [show markersOf (Seg.choice alts :: rest) = alts :: markersOf rest from rfl]
      rw [show numSlots (Seg.choice alts :: rest) = numSlots rest from rfl]
      rw [show choiceSizes (Seg.choice alts :: rest) =
        alts.length :: choiceSizes rest from rfl]
      rw [List.map_cons]
      rw [show natProd (alts.length :: (markersOf rest).map List.length) =
        alts.length * natProd ((markersOf rest).map List.length) from rfl]
      rw [ih]
      rw [show natProd (alts.length :: choiceSizes rest) =
        alts.length * natProd (choiceSizes rest) from rfl]
      ring

theorem countPH_marker (t : List Char) : countPH ('{' :: '}' :: t) = countPH t + 1 := by
  conv_lhs => unfold countPH
  rw [if_pos ⟨rfl, rfl⟩]

theorem countPH_renderSkel :
    ∀ ss : List Seg, wfSegs ss = true →
      countPH (renderSkelE ss) = (markersOf ss).length := by
  intro ss
  induction ss with
  | nil => intro _; rfl
  | cons s rest ih =>
    intro hwf
    obtain ⟨hs, hrest⟩ := wfSegs_cons hwf
    cases s with
    | lit s =>
      rw [show renderSkelE (Seg.lit s :: rest) = escapeBraces s ++ renderSkelE rest
        from rfl]
      rw [(litOk_append s.length s (Nat.le_refl s.length) (wfSeg_lit hs)).2.2.2.2.2
        (renderSkelE rest)]
      rw [ih hrest]
      rfl
    | slot n =>
      rw [show renderSkelE (Seg.slot n :: rest) = '{' :: '}' :: renderSkelE rest from rfl]
      rw [countPH_marker, ih hrest]
      rfl
    | choice alts =>
      rw [show renderSkelE (Seg.choice alts :: rest) = '{' :: '}' :: renderSkelE rest
        from rfl]
      rw [countPH_marker, ih hrest]
      rfl

/-! ### Templates without markers -/

theorem litOk_pipeline :
    ∀ (k : Nat) (t : List Char), t.length ≤ k → litOk t = true →
      (∀ i, scanDouble i t = []) ∧ (∀ i, scanOr i t = []) ∧
        subMarkers t = t ∧ pyFormat (escapeBraces t) [] = some t := by
  intro k
  induction k with
  | zero =>
    intro t hlen _
    have ht : t = [] := by
      cases t with
      | nil => rfl
      | cons c cs => simp at hlen
    subst ht
    exact ⟨fun i => rfl, fun i => rfl, rfl, rfl⟩
  | succ k ih =>
    intro t hlen hok
    cases t with
    | nil => exact ⟨fun i => rfl, fun i => rfl, rfl, rfl⟩
    | cons c cs =>
      by_cases hc : c = '{'
      · subst hc
        cases hm : matchBraceWord ('{' :: cs) with
        | none =>
          rw [litOk_step_none rfl hm] at hok
          exact absurd hok (by simp)
        | some pr =>
          obtain ⟨w, r⟩ := pr
          have hok' : litOk r = true := by
            rw [litOk_step_word hm] at hok
            exact hok
          obtain ⟨hshape, hne, hword⟩ := matchBraceWord_some hm
          have hcs : cs = w ++ '}' :: r := by
            injection hshape
          subst hcs
          have hwnb : ∀ x ∈ w, ¬x = '{' := fun x hx => (isWordChar_spec (hword x hx)).1
          have hwnp : ∀ x ∈ w, ¬x = '(' := fun x hx => (isWordChar_spec (hword x hx)).2.2.1
          have hrlen : r.length ≤ k := by
            simp [List.length_append] at hlen
            omega
          obtain ⟨ih1, ih2, ih3, ih4⟩ := ih r hrlen hok'
          have hmd : matchDouble ('{' :: (w ++ '}' :: r)) = none := by
            cases w with
            | nil => exact absurd rfl hne
            | cons w0 w' =>
              rw [List.cons_append]
              exact matchDouble_none_of_second
                (hwnb w0 (List.mem_cons_self w0 w'))
          have hmo : matchOr ('{' :: (w ++ '}' :: r)) = none :=
            matchOr_none_of_head (by decide)
          refine ⟨?_, ?_, ?_, ?_⟩
          · intro i
            rw [scanDouble_step_adv hmd]
            rw [scanDouble_append_no_open hwnb ('}' :: r) (i + 1)]
            rw [scanDouble_step_adv (matchDouble_none_of_head (by decide))]
            exact ih1 _
          · intro i
            rw [scanOr_step_adv hmo]
            rw [scanOr_append_no_open hwnp ('}' :: r) (i + 1)]
            rw [scanOr_step_adv (matchOr_none_of_head (by decide))]
            exact ih2 _
          · rw [subMarkers_step_copy hmd hmo]
            rw [subMarkers_append_plain fun x hx => ⟨hwnb x hx, hwnp x hx⟩]
            rw [subMarkers_step_copy (matchDouble_none_of_head (by decide))
              (matchOr_none_of_head (by decide))]
            rw [ih3]
          · rw [escapeBraces_step_word hm]
            rw [pyFormat_open_escape]
            rw [pyFormat_append_plain
              (fun x hx => ⟨(isWordChar_spec (hword x hx)).1,
                (isWordChar_spec (hword x hx)).2.1⟩) ('}' :: '}' :: escapeBraces r) []]
            rw [pyFormat_close_escape]
            rw [ih4]
            rfl
      · have hdelim : ¬(c = '}' || c = '(' || c = ')') = true := by
          intro hcc
          rw [litOk_step_delim hc hcc] at hok
          exact absurd hok (by simp)
        have hok' : litOk cs = true := by
          rw [litOk_step_char hc hdelim] at hok
          exact hok
        have hclose : ¬c = '}' := by
          intro h; apply hdelim; simp [h]
        have hopen2 : ¬c = '(' := by
          intro h; apply hdelim; simp [h]
        have hclose2 : ¬c = ')' := by
          intro h; apply hdelim; simp [h]
        have hcslen : cs.length ≤ k := by
          simp at hlen
          omega
        obtain ⟨ih1, ih2, ih3, ih4⟩ := ih cs hcslen hok'
        refine ⟨?_, ?_, ?_, ?_⟩
        · intro i
          rw [scanDouble_step_adv (matchDouble_none_of_head hc)]
          exact ih1 _
        · intro i
          rw [scanOr_step_adv (matchOr_none_of_head hopen2)]
          exact ih2 _
        · rw [subMarkers_step_copy (matchDouble_none_of_head hc)
            (matchOr_none_of_head hopen2)]
          rw [ih3]
        · rw [escapeBraces_step_copy (matchBraceWord_none_of_head hc)]
          rw [pyFormat_char hc hclose]
          rw [ih4]
          rfl

theorem optMapList_singleton (f : α → Option β) (x : α) :
    optMapList f [x] = (f x).map fun y => [y] := by
  rw [show optMapList f [x] =
    (match f x with
     | none => none
     | some y => (optMapList f []).map fun ys => y :: ys) from rfl]
  cases f x <;> rfl

theorem fillInTemplate_no_markers (template : List Char) :
    fillInTemplate template [] = (pyFormat template []).map fun r => [normalizeWs r] := by
  have h1 : ((prodList ([] : List (List (List Char)))).filter fun e => !skipEdit e) =
      [[]] := rfl
  unfold fillInTemplate
  rw [h1, optMapList_singleton]
  dsimp only [List.map_nil]
  cases hp : pyFormat template [] <;> rfl

/-! ### Whitespace normalization -/

theorem pySplit_space {c : Char} {cs : List Char} (h : pyIsSpace c = true) :
    pySplit (c :: cs) = pySplit cs := by
  conv_lhs => unfold pySplit
  rw [if_pos h]

theorem pySplit_single {c : Char} (h : pyIsSpace c = false) :
    pySplit [c] = [[c]] := by
  conv_lhs => unfold pySplit
  rw [if_neg (by simp [h])]

theorem pySplit_break {c d : Char} {cs : List Char} (hc : pyIsSpace c = false)
    (hd : pyIsSpace d = true) :
    pySplit (c :: d :: cs) = [c] :: pySplit (d :: cs) := by
  conv_lhs => unfold pySplit
  rw [if_neg (by simp [hc])]
  dsimp only
  rw [if_pos hd]

theorem pySplit_glue {c d : Char} {cs : List Char} (hc : pyIsSpace c = false)
    (hd : pyIsSpace d = false) :
    pySplit (c :: d :: cs) =
      (match pySplit (d :: cs) with
       | w :: ws => (c :: w) :: ws
       | [] => [[c]]) := by
  conv_lhs => unfold pySplit
  rw [if_neg (by simp [hc])]
  dsimp only
  rw [if_neg (by simp [hd])]

theorem pySplit_words :
    ∀ s : List Char, ∀ w ∈ pySplit s, w ≠ [] ∧ ∀ c ∈ w, pyIsSpace c = false := by
  intro s
  induction s with
  | nil => intro w hw; simp [pySplit] at hw
  | cons c cs ih =>
    intro w hw
    cases hc : pyIsSpace c with
    | true =>
      rw [pySplit_space hc] at hw
      exact ih w hw
    | false =>
      cases cs with
      | nil =>
        rw [pySplit_single hc] at hw
        rcases List.mem_cons.mp hw with h | h
        · subst h
          refine ⟨by simp, ?_⟩
          intro x hx
          rcases List.mem_cons.mp hx with h | h
          · subst h; exact hc
          · simp at h
        · simp at h
      | cons d cs' =>
        cases hd : pyIsSpace d with
        | true =>
          rw [pySplit_break hc hd] at hw
          rcases List.mem_cons.mp hw with h | h
          · subst h
            refine ⟨by simp, ?_⟩
            intro x hx
            rcases List.mem_cons.mp hx with h | h
            · subst h; exact hc
            · simp at h
          · exact ih w h
        | false =>
          rw [pySplit_glue hc hd] at hw
          cases hsplit : pySplit (d :: cs') with
          | nil =>
            rw [hsplit] at hw
            dsimp only at hw
            rcases List.mem_cons.mp hw with h | h
            · subst h
              refine ⟨by simp, ?_⟩
              intro x hx
              rcases List.mem_cons.mp hx with h | h
              · subst h; exact hc
              · simp at h
            · simp at h
          | cons w0 ws0 =>
            rw [hsplit] at hw
            dsimp only at hw
            rcases List.mem_cons.mp hw with h | h
            · subst h
              have hw0 := ih w0 (by rw [hsplit]; exact List.mem_cons_self w0 ws0)
              refine ⟨by simp, ?_⟩
              intro x hx
              rcases List.mem_cons.mp hx with h | h
              · subst h; exact hc
              · exact hw0.2 x h
            · exact ih w (by rw [hsplit]; exact List.mem_cons_of_mem w0 h)

theorem noTrailWs_cons_ne {c : Char} {x : List Char} (hx : x ≠ []) :
    noTrailWs (c :: x) = noTrailWs x := by
  cases x with
  | nil => exact absurd rfl hx
  | cons d ds => rfl

theorem noTrailWs_append {t : List Char} (ht : noTrailWs t = true) (htne : t ≠ []) :
    ∀ w : List Char, noTrailWs (w ++ t) = true := by
  intro w
  induction w with
  | nil => simpa using ht
  | cons c w' ih =>
    rw [List.cons_append]
    rw [noTrailWs_cons_ne (by
      intro h
      exact htne (List.append_eq_nil.mp h).2)]
    exact ih

theorem noTrailWs_of_no_space :
    ∀ {w : List Char}, (∀ c ∈ w, pyIsSpace c = false) → noTrailWs w = true := by
  intro w
  induction w with
  | nil => intro _; rfl
  | cons c w' ih =>
    intro h
    cases w' with
    | nil =>
      rw [show noTrailWs [c] = !pyIsSpace c from rfl, h c (List.mem_cons_self c [])]
      rfl
    | cons d ds =>
      rw [noTrailWs_cons_ne (by simp)]
      exact ih fun x hx => h x (List.mem_cons_of_mem c hx)

theorem noWsRun_of_no_space :
    ∀ {w : List Char}, (∀ c ∈ w, pyIsSpace c = false) → noWsRun w = true := by
  intro w
  induction w with
  | nil => intro _; rfl
  | cons c w' ih =>
    intro h
    cases w' with
    | nil => rfl
    | cons d ds =>
      rw [show noWsRun (c :: d :: ds) =
        (!(pyIsSpace c && pyIsSpace d) && noWsRun (d :: ds)) from rfl]
      rw [h c (List.mem_cons_self c (d :: ds))]
      rw [ih fun x hx => h x (List.mem_cons_of_mem c hx)]
      rfl

theorem noWsRun_append {w t : List Char} (hw : ∀ c ∈ w, pyIsSpace c = false)
    (ht : noWsRun t = true) : noWsRun (w ++ t) = true := by
  induction w with
  | nil => simpa using ht
  | cons c w' ih =>
    rw [List.cons_append]
    cases hwt : w' ++ t with
    | nil => rfl
    | cons d ds =>
      rw [show noWsRun (c :: d :: ds) =
        (!(pyIsSpace c && pyIsSpace d) && noWsRun (d :: ds)) from rfl]
      rw [hw c (List.mem_cons_self c w')]
      rw [← hwt, ih fun x hx => hw x (List.mem_cons_of_mem c hx)]
      rfl

theorem joinSpace_cons_shape :
    ∀ (v : List Char) (rest : List (List Char)),
      joinSpace (v :: rest) = v ++
        (match rest with
         | [] => []
         | _ :: _ => ' ' :: joinSpace rest) := by
  intro v rest
  cases rest with
  | nil => simp [joinSpace]
  | cons u us => rfl

theorem wsOk_parts {s : List Char} (h1 : noLeadWs s = true)
    (h2 : noTrailWs s = true) (h3 : noWsRun s = true) : wsOk s = true := by
  unfold wsOk
  rw [h1, h2, h3]
  rfl

theorem wsOk_destruct {s : List Char} (h : wsOk s = true) :
    noLeadWs s = true ∧ noTrailWs s = true ∧ noWsRun s = true := by
  unfold wsOk at h
  simp only [Bool.and_eq_true] at h
  exact ⟨h.1.1, h.1.2, h.2⟩

theorem wsOk_of_no_space {w : List Char} (h : ∀ c ∈ w, pyIsSpace c = false) :
    wsOk w = true := by
  apply wsOk_parts
  · cases w with
    | nil => rfl
    | cons c cs =>
      rw [show noLeadWs (c :: cs) = !pyIsSpace c from rfl]
      rw [h c (List.mem_cons_self c cs)]
      rfl
  · exact noTrailWs_of_no_space h
  · exact noWsRun_of_no_space h

theorem wsOk_joinSpace :
    ∀ ws : List (List Char),
      (∀ w ∈ ws, w ≠ [] ∧ ∀ c ∈ w, pyIsSpace c = false) →
      wsOk (joinSpace ws) = true := by
  intro ws
  induction ws with
  | nil => intro _; rfl
  | cons w ws' ih =>
    intro h
    obtain ⟨hwne, hwsp⟩ := h w (List.mem_cons_self w ws')
    cases ws' with
    | nil => exact wsOk_of_no_space hwsp
    | cons v ws'' =>
      rw [show joinSpace (w :: v :: ws'') = w ++ ' ' :: joinSpace (v :: ws'') from rfl]
      obtain ⟨hvne, hvsp⟩ := h v (List.mem_cons_of_mem w (List.mem_cons_self v ws''))
      have hJ := ih fun x hx => h x (List.mem_cons_of_mem w hx)
      obtain ⟨hJ1, hJ2, hJ3⟩ := wsOk_destruct hJ
      have hJshape := joinSpace_cons_shape v ws''
      have hJne : joinSpace (v :: ws'') ≠ [] := by
        rw [hJshape]
        intro hnil
        exact hvne (List.append_eq_nil.mp hnil).1
      apply wsOk_parts
      · cases w with
        | nil => exact absurd rfl hwne
        | cons c cs =>
          rw [List.cons_append]
          rw [show noLeadWs (c :: (cs ++ ' ' :: joinSpace (v :: ws''))) =
            !pyIsSpace c from rfl]
          rw [hwsp c (List.mem_cons_self c cs)]
          rfl
      · have htr : noTrailWs (' ' :: joinSpace (v :: ws'')) = true := by
          rw [noTrailWs_cons_ne hJne]
          exact hJ2
        exact noTrailWs_append htr (by simp) w
      · apply noWsRun_append hwsp
        cases hv : v with
        | nil => exact absurd hv hvne
        | cons c0 v' =>
          subst hv
          obtain ⟨tl, htl⟩ : ∃ tl, joinSpace ((c0 :: v') :: ws'') = c0 :: tl := by
            rw [hJshape]
            exact ⟨_, rfl⟩
          rw [htl]
          rw [show noWsRun (' ' :: c0 :: tl) =
            (!(pyIsSpace ' ' && pyIsSpace c0) && noWsRun (c0 :: tl)) from rfl]
          have hc0 : pyIsSpace c0 = false := hvsp c0 (by simp)
          rw [hc0]
          rw [← htl, hJ3]
          rfl

theorem wsOk_normalizeWs (s : List Char) : wsOk (normalizeWs s) = true :=
  wsOk_joinSpace (pySplit s) (pySplit_words s)

theorem optMapList_cons (f : α → Option β) (x : α) (xs : List α) :
    optMapList f (x :: xs) =
      (match f x with
       | none => none
       | some y => (optMapList f xs).map fun ys => y :: ys) := rfl

/-! ### State methods -/

theorem iterBuildAux_spec :
    ∀ (ts : List (List Char)) (st st' : UMState),
      iterBuildAux st ts = some st' →
      st'.utterance_templates = st.utterance_templates ∧
        ∃ rs, optMapList buildUtterances ts = some rs ∧
          rs.length = ts.length ∧ st'.utterances = st.utterances ++ rs := by
  intro ts
  induction ts with
  | nil =>
    intro st st' h
    rw [show iterBuildAux st [] = some st from rfl] at h
    injection h with h
    subst h
    exact ⟨rfl, [], rfl, rfl, by simp⟩
  | cons t ts' ih =>
    intro st st' h
    rw [show iterBuildAux st (t :: ts') =
      (match buildUtterances t with
       | none => none
       | some r =>
         iterBuildAux { st with utterances := st.utterances ++ [r] } ts')
      from rfl] at h
    cases hb : buildUtterances t with
    | none => rw [hb] at h; exact absurd h (by simp)
    | some r =>
      rw [hb] at h
      obtain ⟨htempl, rs', hrs', hlen', hutts⟩ :=
        ih { st with utterances := st.utterances ++ [r] } st' h
      refine ⟨htempl, r :: rs', ?_, by simp [hlen'], ?_⟩
      · rw [optMapList_cons, hb, hrs']
        rfl
      · rw [hutts]
        simp

/-! ### Claim theorems -/

/-- C1: a candidate combination drawn from the Cartesian product of the
alternative lists is rejected by the expansion exactly when some chosen
alternative carries a follower tag that is absent from the combination's
master set; it survives exactly when every follower tag has at least one
master of the same tag anywhere in the combination. -/
theorem fillInTemplate_reject_iff (template : List Char)
    (ordered : List (List (List Char))) (e : List (List Char)) :
    fillInTemplate template ordered =
      optMapList
        (fun edit => (pyFormat template (edit.map cleanAlt)).map normalizeWs)
        ((prodList ordered).filter fun e => !skipEdit e) ∧
    (skipEdit e = true ↔
      ∃ kw ∈ e, ∃ t, firstTag '^' kw = some t ∧ ¬t ∈ mastersOf e) ∧
    (skipEdit e = false ↔ acceptedBySpec e) :=
  ⟨rfl, skipEdit_true_iff e, skipEdit_false_iff e⟩

theorem fillInTemplate_reject_iff_witness :
    (fillInTemplate [] [] =
      optMapList
        (fun edit => (pyFormat [] (edit.map cleanAlt)).map normalizeWs)
        ((prodList []).filter fun e => !skipEdit e) ∧
    (skipEdit [['a', '^', '1']] = true ↔
      ∃ kw ∈ [['a', '^', '1']], ∃ t, firstTag '^' kw = some t ∧
        ¬t ∈ mastersOf [['a', '^', '1']]) ∧
    (skipEdit [['a', '^', '1']] = false ↔ acceptedBySpec [['a', '^', '1']])) :=
  fillInTemplate_reject_iff [] [] [['a', '^', '1']]

/-- C2: the conditional-AND template expands to exactly the two phrases
`bemiden` and `gindled`, in that order. -/
theorem cond_and_two_phrases :
    buildUtterancesStr "(be*1|gin*2|ning)(mid^1|dle^2)(en^1|d^2)" =
      some ["bemiden", "gindled"] := by
  decide

/-- C3: the example template with two choice markers and one optional slot
expands to exactly the eight documented phrases, in order. -/
theorem example_template_eight_phrases :
    buildUtterancesStr "What (is|are) (that|those) {{things}}?" =
      some ["What is that {things}?", "What is that ?",
        "What is those {things}?", "What is those ?",
        "What are that {things}?", "What are that ?",
        "What are those {things}?", "What are those ?"] := by
  decide

/-- C4: on a well-formed template whose markers carry no master or follower
tags, the output is exactly one phrase per candidate combination, in
Cartesian-product order over the markers in ascending start-offset order
(the first marker varies slowest, the last fastest). -/
theorem expansion_product_order (ss : List Seg) (h1 : wfSegs ss = true)
    (h2 : noTags ss = true) :
    buildUtterances (render ss) =
      some ((prodList (markersOf ss)).map (phraseOf ss)) :=
  expansion_noTags h1 h2

theorem expansion_product_order_witness :
    wfSegs [Seg.choice [['a'], ['b']], Seg.lit [' '], Seg.slot ['x']] = true ∧
    noTags [Seg.choice [['a'], ['b']], Seg.lit [' '], Seg.slot ['x']] = true ∧
    buildUtterances
        (render [Seg.choice [['a'], ['b']], Seg.lit [' '], Seg.slot ['x']]) =
      some ((prodList
          (markersOf [Seg.choice [['a'], ['b']], Seg.lit [' '], Seg.slot ['x']])).map
        (phraseOf [Seg.choice [['a'], ['b']], Seg.lit [' '], Seg.slot ['x']])) :=
  ⟨by decide, by decide,
    expansion_product_order
      [Seg.choice [['a'], ['b']], Seg.lit [' '], Seg.slot ['x']]
      (by decide) (by decide)⟩

/-- C5: on a well-formed template with `n` optional slots and choice markers
of sizes `k_1, ..., k_m`, none carrying tags, the number of phrases is
`2 ^ n * k_1 * ... * k_m`. -/
theorem expansion_cardinality (ss : List Seg) (h1 : wfSegs ss = true)
    (h2 : noTags ss = true) :
    (buildUtterances (render ss)).map List.length =
      some (2 ^ numSlots ss * natProd (choiceSizes ss)) := by
  rw [expansion_noTags h1 h2]
  rw [show (some ((prodList (markersOf ss)).map (phraseOf ss))).map List.length =
    some ((prodList (markersOf ss)).map (phraseOf ss)).length from rfl]
  rw [List.length_map, length_prodList, markersOf_sizes]

theorem expansion_cardinality_witness :
    wfSegs [Seg.slot ['x']] = true ∧ noTags [Seg.slot ['x']] = true ∧
    (buildUtterances (render [Seg.slot ['x']])).map List.length = some 2 :=
  ⟨by decide, by decide,
    expansion_cardinality [Seg.slot ['x']] (by decide) (by decide)⟩

/-- C6: on a well-formed template the number of positional placeholders in
the compiled skeleton equals the number of ordered markers, and positional
substitution of every candidate combination succeeds. -/
theorem marker_placeholder_invariant (ss : List Seg) (h : wfSegs ss = true) :
    countPH (escapeBraces (subMarkers (render ss))) =
      (orderCurlies (scanDouble 0 (render ss)) (scanOr 0 (render ss))).length ∧
    ∀ edit ∈ prodList (orderCurlies (scanDouble 0 (render ss)) (scanOr 0 (render ss))),
      (pyFormat (escapeBraces (subMarkers (render ss)))
        (edit.map cleanAlt)).isSome = true := by
  have hskel : escapeBraces (subMarkers (render ss)) = renderSkelE ss := by
    rw [subMarkers_render ss h, escapeBraces_renderSkel ss h]
  have hord := orderCurlies_render h
  constructor
  · rw [hskel, hord, countPH_renderSkel ss h]
  · intro edit hedit
    rw [hord] at hedit
    rw [hskel]
    have hlen : (markersOf ss).length ≤ (edit.map cleanAlt).length := by
      rw [List.length_map]
      exact le_of_eq (mem_prodList_length hedit).symm
    rw [pyFormat_renderSkel ss (edit.map cleanAlt) h hlen]
    rfl

theorem marker_placeholder_invariant_witness :
    wfSegs [Seg.choice [['a', '*', '1'], ['b']],
      Seg.lit [' ', '{', 'p', '}'], Seg.slot ['x']] = true ∧
    (countPH (escapeBraces (subMarkers
        (render [Seg.choice [['a', '*', '1'], ['b']],
          Seg.lit [' ', '{', 'p', '}'], Seg.slot ['x']]))) =
      (orderCurlies
        (scanDouble 0 (render [Seg.choice [['a', '*', '1'], ['b']],
          Seg.lit [' ', '{', 'p', '}'], Seg.slot ['x']]))
        (scanOr 0 (render [Seg.choice [['a', '*', '1'], ['b']],
          Seg.lit [' ', '{', 'p', '}'], Seg.slot ['x']]))).length ∧
    ∀ edit ∈ prodList (orderCurlies
        (scanDouble 0 (render [Seg.choice [['a', '*', '1'], ['b']],
          Seg.lit [' ', '{', 'p', '}'], Seg.slot ['x']]))
        (scanOr 0 (render [Seg.choice [['a', '*', '1'], ['b']],
          Seg.lit [' ', '{', 'p', '}'], Seg.slot ['x']]))),
      (pyFormat (escapeBraces (subMarkers
          (render [Seg.choice [['a', '*', '1'], ['b']],
            Seg.lit [' ', '{', 'p', '}'], Seg.slot ['x']])))
        (edit.map cleanAlt)).isSome = true) :=
  ⟨by decide,
    marker_placeholder_invariant [Seg.choice [['a', '*', '1'], ['b']],
      Seg.lit [' ', '{', 'p', '}'], Seg.slot ['x']] (by decide)⟩

/-- C7: a template in the literal grammar, containing no optional-slot
marker and no choice marker, expands to the single phrase equal to the
template itself, whitespace-normalized. -/
theorem zero_marker_identity (t : List Char) (h : litOk t = true) :
    buildUtterances t = some [normalizeWs t] := by
  obtain ⟨h1, h2, h3, h4⟩ := litOk_pipeline t.length t (Nat.le_refl _) h
  unfold buildUtterances
  rw [h1 0, h2 0, h3]
  rw [show orderCurlies [] [] = [] from rfl]
  rw [fillInTemplate_no_markers, h4]
  rfl

theorem zero_marker_identity_witness :
    litOk "{beginning}{middle}{end}".data = true ∧
    buildUtterances "{beginning}{middle}{end}".data =
      some [normalizeWs "{beginning}{middle}{end}".data] :=
  ⟨by decide, zero_marker_identity "{beginning}{middle}{end}".data (by decide)⟩

/-- C8: every phrase produced by a successful expansion is fully
whitespace-normalized: no leading or trailing whitespace and no run of two
or more whitespace characters. -/
theorem whitespace_normalized_invariant (t : List Char) (out : List (List Char))
    (hsome : buildUtterances t = some out) : ∀ p ∈ out, wsOk p = true := by
  intro p hp
  unfold buildUtterances fillInTemplate at hsome
  obtain ⟨e, _, hfe⟩ := optMapList_mem hsome hp
  cases hq : pyFormat (escapeBraces (subMarkers t)) (e.map cleanAlt) with
  | none => rw [hq] at hfe; exact absurd hfe (by simp)
  | some r =>
    rw [hq] at hfe
    have hpr : normalizeWs r = p := by simpa using hfe
    rw [← hpr]
    exact wsOk_normalizeWs r

theorem whitespace_normalized_invariant_witness :
    buildUtterances "a  b".data = some ["a b".data] ∧
    wsOk "a b".data = true :=
  ⟨by decide,
    whitespace_normalized_invariant "a  b".data ["a b".data] (by decide)
      "a b".data (by decide)⟩

/-- C9: evaluation of `save_utterances` at the two error inputs.  With an
unsupported format and no pre-existing file, the code raises
`NameError: name 'ftype_or' is not defined` while it is still building the
message of its intended unsupported-format `Exception`, because `ftype_or`
is bound nowhere in the module; with a pre-existing file and `force=False`
it raises the explicit already-exists error.  In both cases no write is
described by the result. -/
theorem save_utterances_failing_eval :
    save_utterances (fun _ => false) [] "out".data "pdf".data false none [] =
      Except.error (PyExc.nameErrorExc "ftype_or".data) ∧
    save_utterances (fun _ => true) [] "out".data "txt".data false none [] =
      Except.error PyExc.fileExistsExc := by
  constructor <;> rfl

/-- C10: `build_utterances` leaves the object state unchanged;
`add_utterance_template` appends exactly one template and leaves the built
utterances alone; a successful `iter_build_utterances` leaves the template
list unchanged and appends exactly one result list per stored template to
`self.utterances`, preserving all previously stored results. -/
theorem state_mutation_frame (st st' : UMState) (t : List Char)
    (h : iter_build_utterances st = some st') :
    (build_utterances_method st t).1 = st ∧
    ((add_utterance_template st t).utterance_templates =
        st.utterance_templates ++ [t] ∧
      (add_utterance_template st t).utterances = st.utterances) ∧
    (st'.utterance_templates = st.utterance_templates ∧
      ∃ rs, optMapList buildUtterances st.utterance_templates = some rs ∧
        rs.length = st.utterance_templates.length ∧
        st'.utterances = st.utterances ++ rs) := by
  refine ⟨rfl, ⟨rfl, rfl⟩, ?_⟩
  exact iterBuildAux_spec st.utterance_templates st st' h

theorem state_mutation_frame_witness :
    iter_build_utterances (UMState.mk [['a']] []) =
      some (UMState.mk [['a']] [[['a']]]) ∧
    ((build_utterances_method (UMState.mk [['a']] []) ['b']).1 =
        UMState.mk [['a']] [] ∧
    ((add_utterance_template (UMState.mk [['a']] []) ['b']).utterance_templates =
        (UMState.mk [['a']] []).utterance_templates ++ [['b']] ∧
      (add_utterance_template (UMState.mk [['a']] []) ['b']).utterances =
        (UMState.mk [['a']] []).utterances) ∧
    ((UMState.mk [['a']] [[['a']]]).utterance_templates =
        (UMState.mk [['a']] []).utterance_templates ∧
      ∃ rs, optMapList buildUtterances
          (UMState.mk [['a']] []).utterance_templates = some rs ∧
        rs.length = (UMState.mk [['a']] []).utterance_templates.length ∧
        (UMState.mk [['a']] [[['a']]]).utterances =
          (UMState.mk [['a']] []).utterances ++ rs)) :=
  ⟨by decide,
    state_mutation_frame (UMState.mk [['a']] []) (UMState.mk [['a']] [[['a']]])
      ['b'] (by decide)⟩

end UtterVerify
